import Mathlib

/-!
Verification development for the loadout skill-management tool.

The definitions below are a shallow embedding of the Rust sources:
`src/commands/check.rs` (diagnostic engine), `src/graph/mod.rs`
(graph builder/analyzer), `src/skill/crossref.rs` (reference extractor),
`src/skill/mod.rs` and `src/skill/frontmatter.rs` (skill loading).

Rust strings are modelled as Lean `String` (a packed `List Char`);
`HashMap`/`HashSet` values are modelled as association lists / lists,
with iteration in list order (Rust hash iteration order is unspecified,
so any fixed order is a valid refinement); filesystem reads are passed
in as explicit arguments.  Where the code stable-sorts, the embedding
uses a stable insertion sort (Rust `sort_by_key` is stable).
-/

namespace Loadout

/-- Severity of a finding, `src/commands/check.rs` lines 14-19.
The Rust `derive(PartialOrd, Ord)` orders by declaration order:
`Info < Warning < Error`. -/
inductive Severity
  | info
  | warning
  | error
  deriving DecidableEq, Repr

/-- Ordinal of the derived Rust `Ord` on `Severity`. -/
def sevOrd : Severity → Nat
  | .info => 0
  | .warning => 1
  | .error => 2

/-- A diagnostic finding, `src/commands/check.rs` lines 39-47.
Paths are modelled as lists of path components. -/
structure Finding where
  severity : Severity
  message : String
  fix : String
  path : Option (List String)
  suppressKey : String
  deriving DecidableEq, Repr

/-- Stable insertion of a finding into a list sorted ascending by
severity ordinal: the new element goes before the first element of
greater-or-equal key (so it precedes elements that followed it in
the original list, which is exactly stability of `sort_by_key`). -/
def insertAsc (x : Finding) : List Finding → List Finding
  | [] => [x]
  | y :: ys =>
    if sevOrd x.severity ≤ sevOrd y.severity then x :: y :: ys
    else y :: insertAsc x ys

/-- Stable ascending sort by severity, modelling
`findings.sort_by_key(|f| f.severity)` at `src/commands/check.rs:168`. -/
def sortBySeverityAsc : List Finding → List Finding
  | [] => []
  | x :: xs => insertAsc x (sortBySeverityAsc xs)

/-- `src/commands/check.rs` lines 167-169: stable sort ascending by
severity, then `findings.reverse()` to put errors first. -/
def sortFindings (fs : List Finding) : List Finding :=
  (sortBySeverityAsc fs).reverse

/-- `src/commands/check.rs` lines 172-174: optionally retain only the
findings whose severity is at least the requested minimum. -/
def applySeverityFilter : Option Severity → List Finding → List Finding
  | none, fs => fs
  | some minSev, fs => fs.filter (fun f => sevOrd minSev ≤ sevOrd f.severity)

/-- `src/commands/check.rs` lines 176-187: in non-verbose mode drop the
findings whose suppress key is in the ignore set; in verbose mode keep
them, appending " (suppressed)" to the message. -/
def applySuppression (ignore : List String) (verbose : Bool)
    (fs : List Finding) : List Finding :=
  if verbose then
    fs.map (fun f =>
      if f.suppressKey ∈ ignore then
        { f with message := f.message ++ " (suppressed)" }
      else f)
  else
    fs.filter (fun f => f.suppressKey ∉ ignore)

/-- The aggregation tail of `check` (`src/commands/check.rs` lines
167-189): the concatenated findings of all checks are sorted, filtered
by severity and run through suppression, in that order. -/
def runCheckPipeline (fs : List Finding) (filt : Option Severity)
    (ignore : List String) (verbose : Bool) : List Finding :=
  applySuppression ignore verbose (applySeverityFilter filt (sortFindings fs))

/-- `exit_code`, `src/commands/check.rs` lines 597-603. -/
def exitCode (fs : List Finding) : Int :=
  if fs.any (fun f => f.severity == .error) then 1 else 0

/-- Modelled from the spec: the aggregation order the spec promises —
a stable sort descending by severity, i.e. all errors in discovery
order, then all warnings in discovery order, then all infos. -/
def specAggregationOrder (fs : List Finding) : List Finding :=
  fs.filter (fun f => f.severity == .error)
    ++ fs.filter (fun f => f.severity == .warning)
    ++ fs.filter (fun f => f.severity == .info)

section SortLemmas

theorem mem_insertAsc {x a : Finding} {l : List Finding} :
    a ∈ insertAsc x l ↔ a = x ∨ a ∈ l := by
  induction l with
  | nil => simp [insertAsc]
  | cons y ys ih =>
    by_cases h : sevOrd x.severity ≤ sevOrd y.severity
    · simp [insertAsc, h]
    · simp only [insertAsc, if_neg h, List.mem_cons, ih]
      tauto

theorem mem_sortBySeverityAsc {a : Finding} {l : List Finding} :
    a ∈ sortBySeverityAsc l ↔ a ∈ l := by
  induction l with
  | nil => simp [sortBySeverityAsc]
  | cons x xs ih => simp [sortBySeverityAsc, mem_insertAsc, ih]

theorem mem_sortFindings {a : Finding} {l : List Finding} :
    a ∈ sortFindings l ↔ a ∈ l := by
  simp [sortFindings, mem_sortBySeverityAsc]

theorem insertAsc_append_lt {x : Finding} {A B : List Finding}
    (h : ∀ y ∈ A, sevOrd y.severity < sevOrd x.severity) :
    insertAsc x (A ++ B) = A ++ insertAsc x B := by
  induction A with
  | nil => rfl
  | cons a A ih =>
    have ha : ¬ sevOrd x.severity ≤ sevOrd a.severity := by
      have := h a (List.mem_cons_self a A)
      omega
    have ih' := ih (fun y hy => h y (List.mem_cons_of_mem a hy))
    simp [List.cons_append, insertAsc, if_neg ha, ih']

theorem insertAsc_front {x : Finding} {B : List Finding}
    (h : ∀ y ∈ B, sevOrd x.severity ≤ sevOrd y.severity) :
    insertAsc x B = x :: B := by
  cases B with
  | nil => rfl
  | cons b B =>
    have hb := h b (List.mem_cons_self b B)
    simp [insertAsc, hb]

/-- Characterization of the stable ascending sort: infos first (in
discovery order), then warnings, then errors. -/
theorem sortBySeverityAsc_eq (fs : List Finding) :
    sortBySeverityAsc fs =
      fs.filter (fun f => f.severity == .info)
        ++ fs.filter (fun f => f.severity == .warning)
        ++ fs.filter (fun f => f.severity == .error) := by
  induction fs with
  | nil => rfl
  | cons x xs ih =>
    have memSev : ∀ (s : Severity) (y : Finding),
        y ∈ xs.filter (fun f => f.severity == s) → y.severity = s := by
      intro s y hy
      have := List.of_mem_filter hy
      simpa using this
    simp only [sortBySeverityAsc, ih]
    cases hx : x.severity with
    | info =>
      have hfront : ∀ y ∈ (xs.filter (fun f => f.severity == Severity.info)
          ++ xs.filter (fun f => f.severity == Severity.warning))
          ++ xs.filter (fun f => f.severity == Severity.error),
          sevOrd x.severity ≤ sevOrd y.severity := by
        intro y _
        simp [hx, sevOrd]
      rw [insertAsc_front hfront]
      simp [List.filter_cons, hx]
    | warning =>
      rw [List.append_assoc]
      rw [insertAsc_append_lt (by
        intro y hy
        have := memSev .info y hy
        simp [this, hx, sevOrd])]
      rw [insertAsc_front (by
        intro y hy
        rcases List.mem_append.mp hy with h1 | h2
        · have := memSev .warning y h1
          simp [this, hx, sevOrd]
        · have := memSev .error y h2
          simp [this, hx, sevOrd])]
      simp [List.filter_cons, hx, List.append_assoc]
    | error =>
      rw [insertAsc_append_lt (by
        intro y hy
        rcases List.mem_append.mp hy with h1 | h2
        · have := memSev .info y h1
          simp [this, hx, sevOrd]
        · have := memSev .warning y h2
          simp [this, hx, sevOrd])]
      rw [insertAsc_front (by
        intro y hy
        have := memSev .error y hy
        simp [this, hx, sevOrd])]
      simp [List.filter_cons, hx]

/-- The implemented aggregation: reversing the stable ascending sort
yields the errors in reverse discovery order, then the warnings in
reverse discovery order, then the infos in reverse discovery order. -/
theorem sortFindings_eq (fs : List Finding) :
    sortFindings fs =
      (fs.filter (fun f => f.severity == .error)).reverse
        ++ (fs.filter (fun f => f.severity == .warning)).reverse
        ++ (fs.filter (fun f => f.severity == .info)).reverse := by
  rw [sortFindings, sortBySeverityAsc_eq]
  simp [List.reverse_append]

theorem pairwise_of_forall_mem {R : Finding → Finding → Prop}
    {l : List Finding} (h : ∀ a ∈ l, ∀ b ∈ l, R a b) : l.Pairwise R := by
  induction l with
  | nil => exact List.Pairwise.nil
  | cons x xs ih =>
    refine List.Pairwise.cons ?_ (ih ?_)
    · intro b hb
      exact h x (List.mem_cons_self x xs) b (List.mem_cons_of_mem x hb)
    · intro a ha b hb
      exact h a (List.mem_cons_of_mem x ha) b (List.mem_cons_of_mem x hb)

theorem sortFindings_pairwise (fs : List Finding) :
    (sortFindings fs).Pairwise
      (fun f g => sevOrd g.severity ≤ sevOrd f.severity) := by
  rw [sortFindings_eq]
  have hsev : ∀ (s : Severity) (y : Finding),
      y ∈ (fs.filter (fun f => f.severity == s)).reverse →
      y.severity = s := by
    intro s y hy
    rw [List.mem_reverse] at hy
    have := List.of_mem_filter hy
    simpa using this
  refine List.pairwise_append.mpr ⟨?_, ?_, ?_⟩
  · refine List.pairwise_append.mpr ⟨?_, ?_, ?_⟩
    · exact pairwise_of_forall_mem (by
        intro a ha b hb
        rw [hsev .error a ha, hsev .error b hb])
    · exact pairwise_of_forall_mem (by
        intro a ha b hb
        rw [hsev .warning a ha, hsev .warning b hb])
    · intro a ha b hb
      rw [hsev .error a ha, hsev .warning b hb]
      simp [sevOrd]
  · exact pairwise_of_forall_mem (by
      intro a ha b hb
      rw [hsev .info a ha, hsev .info b hb])
  · intro a ha b hb
    rw [hsev .info b hb]
    rcases List.mem_append.mp ha with h1 | h2
    · rw [hsev .error a h1]; simp [sevOrd]
    · rw [hsev .warning a h2]; simp [sevOrd]

/-- Every finding of the pipeline output descends from an input finding
with the same severity and suppress key. -/
theorem mem_runCheckPipeline {f : Finding} {fs : List Finding}
    {filt : Option Severity} {ignore : List String} {verbose : Bool} :
    f ∈ runCheckPipeline fs filt ignore verbose →
    ∃ g ∈ fs, g.severity = f.severity ∧ g.suppressKey = f.suppressKey := by
  intro hf
  unfold runCheckPipeline applySuppression at hf
  have step : ∀ h ∈ applySeverityFilter filt (sortFindings fs), h ∈ fs := by
    intro h hh
    cases filt with
    | none => exact mem_sortFindings.mp hh
    | some m =>
      simp only [applySeverityFilter] at hh
      exact mem_sortFindings.mp (List.mem_of_mem_filter hh)
  by_cases hv : verbose
  · rw [if_pos hv] at hf
    rcases List.mem_map.mp hf with ⟨g, hg, hfg⟩
    refine ⟨g, step g hg, ?_⟩
    by_cases hk : g.suppressKey ∈ ignore
    · rw [if_pos hk] at hfg
      subst hfg
      exact ⟨rfl, rfl⟩
    · rw [if_neg hk] at hfg
      subst hfg
      exact ⟨rfl, rfl⟩
  · rw [if_neg hv] at hf
    exact ⟨f, step f (List.mem_of_mem_filter hf), rfl, rfl⟩

theorem pairwise_runCheckPipeline (fs : List Finding)
    (filt : Option Severity) (ignore : List String) (verbose : Bool) :
    (runCheckPipeline fs filt ignore verbose).Pairwise
      (fun f g => sevOrd g.severity ≤ sevOrd f.severity) := by
  have h1 : (applySeverityFilter filt (sortFindings fs)).Pairwise
      (fun f g => sevOrd g.severity ≤ sevOrd f.severity) := by
    cases filt with
    | none => exact sortFindings_pairwise fs
    | some m =>
      exact List.Pairwise.sublist (List.filter_sublist _) (sortFindings_pairwise fs)
  unfold runCheckPipeline applySuppression
  by_cases hv : verbose
  · rw [if_pos hv]
    rw [List.pairwise_map]
    refine h1.imp_of_mem ?_
    intro a b _ _ hab
    by_cases ha : a.suppressKey ∈ ignore <;>
      by_cases hb : b.suppressKey ∈ ignore <;>
        simp [ha, hb, hab]
  · rw [if_neg hv]
    exact List.Pairwise.sublist (List.filter_sublist _) h1

end SortLemmas

/-- C1 counterexample input: two warning findings discovered in order. -/
def w1 : Finding :=
  { severity := .warning, message := "first", fix := "fix one",
    path := none, suppressKey := "k1" }

/-- Second warning finding of the C1 counterexample. -/
def w2 : Finding :=
  { severity := .warning, message := "second", fix := "fix two",
    path := none, suppressKey := "k2" }

/-- C1, counterexample: on the discovery-ordered input `[w1, w2]` (two
distinct Warning findings, no filter, no suppression) the engine
returns `[w2, w1]` — equal-severity findings come out in reverse
discovery order, not in discovery order as the claim states, because
the code stable-sorts ascending and then reverses the whole list. -/
theorem C1_counterexample :
    runCheckPipeline [w1, w2] none [] false = [w2, w1] ∧
    runCheckPipeline [w1, w2] none [] false ≠ specAggregationOrder [w1, w2] ∧
    specAggregationOrder [w1, w2] = [w1, w2] := by
  refine ⟨by decide, by decide, by decide⟩

/-- C1 (amended): the returned list is the concatenation of all checks
findings sorted descending by severity, with equal-severity findings in
reverse discovery order (the code stable-sorts ascending and then
reverses); in particular severity is non-increasing along the output of
the whole pipeline, so no Error-severity finding ever appears after a
Warning or Info finding. -/
theorem C1_aggregation_amended (fs : List Finding) (filt : Option Severity)
    (ignore : List String) (verbose : Bool) :
    sortFindings fs =
      (fs.filter (fun f => f.severity == .error)).reverse
        ++ (fs.filter (fun f => f.severity == .warning)).reverse
        ++ (fs.filter (fun f => f.severity == .info)).reverse ∧
    (runCheckPipeline fs filt ignore verbose).Pairwise
      (fun f g => sevOrd g.severity ≤ sevOrd f.severity) :=
  ⟨sortFindings_eq fs, pairwise_runCheckPipeline fs filt ignore verbose⟩

/-- C6: the exit code is 1 exactly when an Error-severity finding is in
the list returned by the pipeline (i.e. survives severity filtering and
suppression), and 0 otherwise; if the input has no Error at all, or
(in non-verbose mode) every Error-severity finding has its suppress key
in the ignore set, the exit code is 0. -/
theorem C6_exit_code (fs : List Finding) (filt : Option Severity)
    (ignore : List String) (verbose : Bool) :
    (exitCode (runCheckPipeline fs filt ignore verbose) = 1 ↔
      ∃ f ∈ runCheckPipeline fs filt ignore verbose, f.severity = .error) ∧
    (exitCode (runCheckPipeline fs filt ignore verbose) = 0 ↔
      ∀ f ∈ runCheckPipeline fs filt ignore verbose, f.severity ≠ .error) ∧
    ((∀ f ∈ fs, f.severity ≠ .error) →
      exitCode (runCheckPipeline fs filt ignore verbose) = 0) ∧
    (verbose = false →
      (∀ f ∈ fs, f.severity = .error → f.suppressKey ∈ ignore) →
      exitCode (runCheckPipeline fs filt ignore verbose) = 0) := by
  have hany : ∀ (l : List Finding),
      (l.any (fun f => f.severity == .error) = true) ↔
      ∃ f ∈ l, f.severity = .error := by
    intro l
    rw [List.any_eq_true]
    constructor
    · rintro ⟨f, hf, he⟩
      exact ⟨f, hf, by simpa using he⟩
    · rintro ⟨f, hf, he⟩
      exact ⟨f, hf, by simpa using he⟩
  have key : ∀ (l : List Finding),
      (exitCode l = 1 ↔ ∃ f ∈ l, f.severity = .error) ∧
      (exitCode l = 0 ↔ ∀ f ∈ l, f.severity ≠ .error) := by
    intro l
    cases hb : l.any (fun f => f.severity == .error) with
    | true =>
      have hex := (hany l).mp hb
      have hone : exitCode l = 1 := by simp [exitCode, hb]
      constructor
      · exact ⟨fun _ => hex, fun _ => hone⟩
      · constructor
        · intro h0
          rw [hone] at h0
          exact absurd h0 (by decide)
        · intro hall
          rcases hex with ⟨f, hf, he⟩
          exact absurd he (hall f hf)
    | false =>
      have hnone : ∀ f ∈ l, f.severity ≠ .error := by
        intro f hf he
        have : l.any (fun f => f.severity == .error) = true :=
          (hany l).mpr ⟨f, hf, he⟩
        rw [hb] at this
        exact absurd this (by decide)
      have hzero : exitCode l = 0 := by simp [exitCode, hb]
      constructor
      · constructor
        · intro h1
          rw [hzero] at h1
          exact absurd h1 (by decide)
        · rintro ⟨f, hf, he⟩
          exact absurd he (hnone f hf)
      · exact ⟨fun _ => hnone, fun _ => hzero⟩
  refine ⟨(key _).1, (key _).2, ?_, ?_⟩
  · intro hnoerr
    apply (key _).2.mpr
    intro f hf he
    rcases mem_runCheckPipeline hf with ⟨g, hg, hsev, _⟩
    exact hnoerr g hg (hsev.trans he)
  · intro hvb hsupp
    apply (key _).2.mpr
    intro f hf he
    rcases mem_runCheckPipeline hf with ⟨g, hg, hsev, hkey⟩
    have hgerr : g.severity = .error := hsev.trans he
    have hkeyin : g.suppressKey ∈ ignore := hsupp g hg hgerr
    subst hvb
    unfold runCheckPipeline applySuppression at hf
    rw [if_neg (by simp)] at hf
    have := List.of_mem_filter hf
    simp only [decide_eq_true_eq] at this
    exact this (hkey ▸ hkeyin)

/-- Witness for C6 at a concrete input: a single error finding with no
filtering or suppression yields exit code 1. -/
theorem C6_exit_code_witness :
    exitCode (runCheckPipeline
      [{ severity := .error, message := "boom", fix := "fix it",
         path := none, suppressKey := "e1" }] none [] false) = 1 :=
  (C6_exit_code
    [{ severity := .error, message := "boom", fix := "fix it",
       path := none, suppressKey := "e1" }] none [] false).1.mpr
    ⟨{ severity := .error, message := "boom", fix := "fix it",
       path := none, suppressKey := "e1" }, by decide, rfl⟩

/-! ## Graph builder (`src/graph/mod.rs`) -/

/-- Detection method for a cross-reference,
`src/skill/crossref.rs` lines 16-26. -/
inductive DetectionMethod
  | xmlCrossref
  | backtickContext
  | relatedTable
  | naturalLanguage
  deriving DecidableEq, Repr

/-- A cross-reference, `src/skill/crossref.rs` lines 5-13. -/
structure CrossRef where
  target : String
  line : Nat
  method : DetectionMethod
  deriving DecidableEq, Repr

/-- The `HashMap<String, Vec<CrossRef>>` input of the graph builder,
modelled as an association list (keys unique in actual runs). -/
abbrev CrossrefMap := List (String × List CrossRef)

/-- Node collection of `SkillGraph::from_crossrefs`
(`src/graph/mod.rs` lines 38-45): every map key and every referenced
target, as a set (first-occurrence order stands in for the
unspecified `HashSet` iteration order). -/
def graphNodes (m : CrossrefMap) : List String :=
  (m.flatMap (fun e => e.1 :: e.2.map (fun r => r.target))).dedup

/-- Edge collection of `SkillGraph::from_crossrefs`
(`src/graph/mod.rs` lines 53-61): one `add_edge` per cross-reference
whose target resolves to a node.  petgraph `add_edge` keeps parallel
edges, so no deduplication happens here. -/
def graphEdges (nodes : List String) (m : CrossrefMap) :
    List (String × String) :=
  m.flatMap (fun e => e.2.filterMap (fun r =>
    if r.target ∈ nodes then some (e.1, r.target) else none))

/-- Number of edges leaving `v` (`edges_directed(.., Outgoing).count()`). -/
def outDegree (edges : List (String × String)) (v : String) : Nat :=
  (edges.filter (fun e => e.1 == v)).length

/-- Number of edges entering `v` (`edges_directed(.., Incoming).count()`). -/
def inDegree (edges : List (String × String)) (v : String) : Nat :=
  (edges.filter (fun e => e.2 == v)).length

/-- Insertion step of the string sort used by `roots.sort()` etc. -/
def insertStr (x : String) : List String → List String
  | [] => [x]
  | y :: ys => if x ≤ y then x :: y :: ys else y :: insertStr x ys

/-- Ascending sort of skill names, modelling `Vec::sort` on `String`
(lexicographic; UTF-8 byte order equals code-point order). -/
def sortStrings : List String → List String
  | [] => []
  | x :: xs => insertStr x (sortStrings xs)

/-- Successors of `u` in the edge list. -/
def succNodes (edges : List (String × String)) (u : String) : List String :=
  (edges.filter (fun e => e.1 == u)).map (fun e => e.2)

/-- Bounded reachability: `reachN edges n u v` holds when some walk of
at most `n` edges leads from `u` to `v`. -/
def reachN (edges : List (String × String)) : Nat → String → String → Bool
  | 0, u, v => u == v
  | n + 1, u, v =>
    u == v || (succNodes edges u).any (fun w => reachN edges n w v)

/-- Mutual bounded reachability, the executable strong-connectivity test
used to compute Tarjan-equivalent components. -/
def mutualB (edges : List (String × String)) (fuel : Nat)
    (u v : String) : Bool :=
  reachN edges fuel u v && reachN edges fuel v u

/-- Partition of a worklist into strongly connected components: the
head of the list is grouped with every later node mutually reachable
with it, and the rest is processed recursively.  This models the
contract of petgraph `tarjan_scc` (`src/graph/mod.rs:210`), which
returns the strongly connected components of the graph. -/
def sccComponentsAux (edges : List (String × String)) (fuel : Nat) :
    List String → List (List String)
  | [] => []
  | v :: rest =>
    (v :: rest.filter (fun u => mutualB edges fuel v u)) ::
      sccComponentsAux edges fuel (rest.filter (fun u => !mutualB edges fuel v u))
termination_by l => l.length
decreasing_by
  simp only [List.length_cons]
  exact Nat.lt_succ_of_le (List.length_filter_le _ _)

/-- All strongly connected components of the graph. -/
def sccComponents (nodes : List String) (edges : List (String × String)) :
    List (List String) :=
  sccComponentsAux edges nodes.length nodes

/-- `detect_clusters`, `src/graph/mod.rs` lines 205-223: the strongly
connected components of size greater than one. -/
def detectClusters (nodes : List String) (edges : List (String × String)) :
    List (List String) :=
  (sccComponents nodes edges).filter (fun c => 1 < c.length)

/-- The analyzed skill graph, `src/graph/mod.rs` lines 12-30. -/
structure SkillGraph where
  nodes : List String
  edges : List (String × String)
  clusters : List (List String)
  roots : List String
  leaves : List String
  bridges : List String

/-- `SkillGraph::from_crossrefs`, `src/graph/mod.rs` lines 34-77:
collect nodes, add one edge per cross-reference, then compute clusters,
roots (`find_roots`, lines 225-244), leaves (`find_leaves`, lines
246-265) and bridge candidates (`find_bridges`, lines 267-295). -/
def fromCrossrefs (m : CrossrefMap) : SkillGraph :=
  let nodes := graphNodes m
  let edges := graphEdges nodes m
  { nodes := nodes
    edges := edges
    clusters := detectClusters nodes edges
    roots := sortStrings (nodes.filter (fun v => inDegree edges v == 0))
    leaves := sortStrings (nodes.filter (fun v => outDegree edges v == 0))
    bridges := sortStrings (nodes.filter (fun v =>
      decide (0 < inDegree edges v) && decide (0 < outDegree edges v))) }

section GraphLemmas

theorem mem_insertStr {x a : String} {l : List String} :
    a ∈ insertStr x l ↔ a = x ∨ a ∈ l := by
  induction l with
  | nil => simp [insertStr]
  | cons y ys ih =>
    by_cases h : x ≤ y
    · simp [insertStr, h]
    · simp only [insertStr, if_neg h, List.mem_cons, ih]
      tauto

theorem mem_sortStrings {a : String} {l : List String} :
    a ∈ sortStrings l ↔ a ∈ l := by
  induction l with
  | nil => simp [sortStrings]
  | cons x xs ih => simp [sortStrings, mem_insertStr, ih]

/-- Every edge target of the built graph is a node (the builder only
adds an edge after resolving the target among the nodes). -/
theorem graphEdges_target_mem {nodes : List String} {m : CrossrefMap}
    {p : String × String} (hp : p ∈ graphEdges nodes m) : p.2 ∈ nodes := by
  rcases List.mem_flatMap.mp hp with ⟨e, _, he⟩
  rcases List.mem_filterMap.mp he with ⟨r, _, hr⟩
  by_cases ht : r.target ∈ nodes
  · rw [if_pos ht] at hr
    cases hr
    exact ht
  · rw [if_neg ht] at hr
    cases hr

/-- Every edge source of the built graph is a key of the map. -/
theorem graphEdges_source_mem {nodes : List String} {m : CrossrefMap}
    {p : String × String} (hp : p ∈ graphEdges nodes m) :
    p.1 ∈ m.map Prod.fst := by
  rcases List.mem_flatMap.mp hp with ⟨e, hem, he⟩
  rcases List.mem_filterMap.mp he with ⟨r, _, hr⟩
  by_cases ht : r.target ∈ nodes
  · rw [if_pos ht] at hr
    cases hr
    exact List.mem_map.mpr ⟨e, hem, rfl⟩
  · rw [if_neg ht] at hr
    cases hr

theorem graphNodes_nodup (m : CrossrefMap) : (graphNodes m).Nodup :=
  List.nodup_dedup _

/-- Every referenced target is a node, so the builder resolves every
cross-reference to an edge. -/
theorem target_mem_graphNodes {m : CrossrefMap} {e : String × List CrossRef}
    {r : CrossRef} (hem : e ∈ m) (hr : r ∈ e.2) :
    r.target ∈ graphNodes m := by
  unfold graphNodes
  rw [List.mem_dedup]
  exact List.mem_flatMap.mpr
    ⟨e, hem, List.mem_cons_of_mem _ (List.mem_map.mpr ⟨r, hr, rfl⟩)⟩

theorem count_filterMap_refs {s t : String} {nodes : List String}
    (refs : List CrossRef)
    (hclosed : ∀ r ∈ refs, r.target ∈ nodes) :
    List.count (s, t) (refs.filterMap (fun r =>
      if r.target ∈ nodes then some (s, r.target) else none)) =
    List.countP (fun r => r.target == t) refs := by
  induction refs with
  | nil => rfl
  | cons r rs ih =>
    have hrt : r.target ∈ nodes := hclosed r (List.mem_cons_self r rs)
    have ih' := ih (fun x hx => hclosed x (List.mem_cons_of_mem r hx))
    rw [List.filterMap_cons, if_pos hrt]
    by_cases h : r.target = t
    · subst h
      rw [List.count_cons, List.countP_cons, ih']
      simp
    · rw [List.count_cons, List.countP_cons, ih']
      have h1 : ¬ ((s, r.target) = (s, t)) := by
        intro hq
        exact h (congrArg Prod.snd hq)
      have h2 : ¬ (r.target == t) = true := by
        simpa using h
      simp [h1, h2]

theorem count_graphEdges_of_not_key {s t : String} {nodes : List String}
    {m : CrossrefMap} (hs : s ∉ m.map Prod.fst) :
    List.count (s, t) (graphEdges nodes m) = 0 := by
  rw [List.count_eq_zero]
  intro hmem
  exact hs (graphEdges_source_mem hmem)

theorem count_graphEdges {s t : String} (nodes : List String)
    (m : CrossrefMap) (refs : List CrossRef)
    (hnd : (m.map Prod.fst).Nodup) (hmem : (s, refs) ∈ m)
    (hclosed : ∀ e ∈ m, ∀ r ∈ (e : String × List CrossRef).2,
      r.target ∈ nodes) :
    List.count (s, t) (graphEdges nodes m) =
      List.countP (fun r => r.target == t) refs := by
  induction m with
  | nil => cases hmem
  | cons e m' ih =>
    rw [List.map_cons, List.nodup_cons] at hnd
    unfold graphEdges
    rw [List.flatMap_cons, List.count_append]
    rcases List.mem_cons.mp hmem with heq | hmem'
    · cases heq
      rw [count_filterMap_refs refs
        (hclosed (s, refs) (List.mem_cons_self _ _))]
      have hz : List.count (s, t) (graphEdges nodes m') = 0 :=
        count_graphEdges_of_not_key hnd.1
      unfold graphEdges at hz
      omega
    · have hsk : s ∈ m'.map Prod.fst :=
        List.mem_map.mpr ⟨(s, refs), hmem', rfl⟩
      have hse : s ≠ e.1 := fun h => hnd.1 (h ▸ hsk)
      have hhead : List.count (s, t) (e.2.filterMap (fun r =>
          if r.target ∈ nodes then some (e.1, r.target) else none)) = 0 := by
        rw [List.count_eq_zero]
        intro hmem2
        rcases List.mem_filterMap.mp hmem2 with ⟨r, _, hr⟩
        by_cases ht : r.target ∈ nodes
        · rw [if_pos ht] at hr
          cases hr
          exact hse rfl
        · rw [if_neg ht] at hr
          cases hr
      have ih' := ih hnd.2 hmem'
        (fun e' he' => hclosed e' (List.mem_cons_of_mem e he'))
      unfold graphEdges at ih'
      omega

theorem filterMap_if_all {α β : Type} {P : α → Prop} [DecidablePred P]
    {f : α → β} (l : List α) (h : ∀ x ∈ l, P x) :
    (l.filterMap (fun x => if P x then some (f x) else none)) = l.map f := by
  induction l with
  | nil => rfl
  | cons a l' ih =>
    rw [List.filterMap_cons, if_pos (h a (List.mem_cons_self a l')),
      List.map_cons, ih (fun x hx => h x (List.mem_cons_of_mem a hx))]

theorem length_graphEdges (nodes : List String) (m : CrossrefMap)
    (hclosed : ∀ e ∈ m, ∀ r ∈ (e : String × List CrossRef).2,
      r.target ∈ nodes) :
    (graphEdges nodes m).length = (m.map (fun e => e.2.length)).sum := by
  induction m with
  | nil => rfl
  | cons e m' ih =>
    unfold graphEdges
    rw [List.flatMap_cons, List.length_append]
    have h1 : (e.2.filterMap (fun r =>
        if r.target ∈ nodes then some (e.1, r.target) else none))
        = e.2.map (fun r => (e.1, r.target)) :=
      filterMap_if_all e.2 (hclosed e (List.mem_cons_self e m'))
    rw [h1, List.length_map]
    have ih' := ih (fun e' he' => hclosed e' (List.mem_cons_of_mem e he'))
    unfold graphEdges at ih'
    rw [ih', List.map_cons, List.sum_cons]

end GraphLemmas

/-- First cross-reference of the C2 counterexample. -/
def dupRefA : CrossRef := { target := "b", line := 1, method := .xmlCrossref }

/-- Second cross-reference of the C2 counterexample (same target). -/
def dupRefB : CrossRef := { target := "b", line := 2, method := .xmlCrossref }

/-- C2 counterexample crossref map: one source mentioning the same
target twice. -/
def dupMap : CrossrefMap := [("a", [dupRefA, dupRefB])]

/-- C2, counterexample: a source whose crossref list mentions the same
target twice produces two parallel edges — petgraph `add_edge` does not
collapse duplicate `(source, target)` pairs, contradicting the claimed
"at most one directed edge per distinct pair". -/
theorem C2_counterexample :
    (fromCrossrefs dupMap).edges = [("a", "b"), ("a", "b")] ∧
    ¬ List.count ("a", "b") (fromCrossrefs dupMap).edges ≤ 1 := by
  constructor
  · decide
  · decide

/-- C2 (amended): the built graph contains one directed edge per
cross-reference entry: the multiplicity of edge `(s, t)` equals the
number of cross-references with target `t` in the list of source `s`
(so duplicate references yield parallel edges rather than collapsing),
and the total edge count equals the total cross-reference count. -/
theorem C2_edges_amended (m : CrossrefMap)
    (hnd : (m.map Prod.fst).Nodup) (s t : String) (refs : List CrossRef)
    (hmem : (s, refs) ∈ m) :
    List.count (s, t) (fromCrossrefs m).edges =
      List.countP (fun r => r.target == t) refs ∧
    (fromCrossrefs m).edges.length = (m.map (fun e => e.2.length)).sum := by
  have hclosed : ∀ e ∈ m, ∀ r ∈ (e : String × List CrossRef).2,
      r.target ∈ graphNodes m := fun e he r hr => target_mem_graphNodes he hr
  exact ⟨count_graphEdges (graphNodes m) m refs hnd hmem hclosed,
    length_graphEdges (graphNodes m) m hclosed⟩

/-- Witness for the amended C2 at the duplicate map: both parallel
edges are present, so the count is 2. -/
theorem C2_edges_amended_witness :
    List.count ("a", "b") (fromCrossrefs dupMap).edges = 2 :=
  (C2_edges_amended dupMap (by decide) "a" "b" [dupRefA, dupRefB]
    (by decide)).1.trans (by decide)

/-- C4: a name is a node of the built graph exactly when it is a key of
the crossref map or the target of some cross-reference in the map
(phantom targets with no entry of their own included). -/
theorem C4_node_set (m : CrossrefMap) (x : String) :
    x ∈ (fromCrossrefs m).nodes ↔
      x ∈ m.map Prod.fst ∨
        ∃ e ∈ m, ∃ r ∈ (e : String × List CrossRef).2, r.target = x := by
  show x ∈ graphNodes m ↔ _
  unfold graphNodes
  rw [List.mem_dedup, List.mem_flatMap]
  constructor
  · rintro ⟨e, he, hx⟩
    rcases List.mem_cons.mp hx with h1 | h2
    · exact Or.inl (List.mem_map.mpr ⟨e, he, h1.symm⟩)
    · rcases List.mem_map.mp h2 with ⟨r, hr, hrx⟩
      exact Or.inr ⟨e, he, r, hr, hrx⟩
  · rintro (h1 | ⟨e, he, r, hr, hrx⟩)
    · rcases List.mem_map.mp h1 with ⟨e, he, hx⟩
      exact ⟨e, he, hx ▸ List.mem_cons_self _ _⟩
    · exact ⟨e, he, List.mem_cons_of_mem _ (List.mem_map.mpr ⟨r, hr, hrx⟩)⟩

/-- C5: a node is listed among the bridges exactly when it has at least
one incoming and at least one outgoing edge — the crude degree
heuristic of `find_bridges`, not articulation-point detection. -/
theorem C5_bridges (m : CrossrefMap) (x : String) :
    x ∈ (fromCrossrefs m).bridges ↔
      x ∈ (fromCrossrefs m).nodes ∧
        0 < inDegree (fromCrossrefs m).edges x ∧
        0 < outDegree (fromCrossrefs m).edges x := by
  show x ∈ sortStrings ((graphNodes m).filter _) ↔
    x ∈ graphNodes m ∧ 0 < inDegree (graphEdges (graphNodes m) m) x ∧
      0 < outDegree (graphEdges (graphNodes m) m) x
  rw [mem_sortStrings, List.mem_filter]
  constructor
  · rintro ⟨h1, h2⟩
    rw [Bool.and_eq_true, decide_eq_true_eq, decide_eq_true_eq] at h2
    exact ⟨h1, h2⟩
  · rintro ⟨h1, h2, h3⟩
    exact ⟨h1, by rw [Bool.and_eq_true, decide_eq_true_eq,
      decide_eq_true_eq]; exact ⟨h2, h3⟩⟩

/-! ## Strongly connected components: correctness of the cluster
computation against the mathematical reachability relation -/

/-- True (unbounded) reachability along the directed edge list. -/
def Reaches (edges : List (String × String)) (u v : String) : Prop :=
  Relation.ReflTransGen (fun a b => (a, b) ∈ edges) u v

/-- Mutual reachability: `u` and `v` lie on a common cycle. -/
def MutualReach (edges : List (String × String)) (u v : String) : Prop :=
  Reaches edges u v ∧ Reaches edges v u

section ReachLemmas

variable {e : List (String × String)}

theorem mem_succNodes {u w : String} :
    w ∈ succNodes e u ↔ (u, w) ∈ e := by
  unfold succNodes
  rw [List.mem_map]
  constructor
  · rintro ⟨p, hp, hw⟩
    have hmem := List.mem_of_mem_filter hp
    have heq := List.of_mem_filter hp
    simp only [beq_iff_eq] at heq
    have : p = (u, w) := by
      cases p
      simp_all
    exact this ▸ hmem
  · intro h
    exact ⟨(u, w), List.mem_filter.mpr ⟨h, by simp⟩, rfl⟩

theorem reachN_refl (n : Nat) (u : String) : reachN e n u u = true := by
  cases n <;> simp [reachN]

theorem reachN_step {n : Nat} {u w v : String} (hs : (u, w) ∈ e)
    (hr : reachN e n w v = true) : reachN e (n + 1) u v = true := by
  simp only [reachN, Bool.or_eq_true, List.any_eq_true]
  exact Or.inr ⟨w, mem_succNodes.mpr hs, hr⟩

theorem reachN_mono : ∀ {n m : Nat} {u v : String}, n ≤ m →
    reachN e n u v = true → reachN e m u v = true := by
  intro n
  induction n with
  | zero =>
    intro m u v _ h
    simp only [reachN, beq_iff_eq] at h
    exact h ▸ reachN_refl m u
  | succ n ih =>
    intro m u v hnm h
    simp only [reachN, Bool.or_eq_true, List.any_eq_true] at h
    rcases h with h | ⟨w, hw, hr⟩
    · have : u = v := by simpa using h
      exact this ▸ reachN_refl m u
    · cases m with
      | zero => exact absurd hnm (by omega)
      | succ m' =>
        exact reachN_step (mem_succNodes.mp hw)
          (ih (Nat.le_of_succ_le_succ hnm) hr)

theorem reaches_iff_exists_reachN {u v : String} :
    Reaches e u v ↔ ∃ n, reachN e n u v = true := by
  constructor
  · intro h
    induction h using Relation.ReflTransGen.head_induction_on with
    | refl => exact ⟨0, by simp [reachN]⟩
    | head hs _ ih =>
      rcases ih with ⟨n, hn⟩
      exact ⟨n + 1, reachN_step hs hn⟩
  · rintro ⟨n, hn⟩
    induction n generalizing u with
    | zero =>
      have : u = v := by simpa [reachN] using hn
      exact this ▸ Relation.ReflTransGen.refl
    | succ n ih =>
      simp only [reachN, Bool.or_eq_true, List.any_eq_true] at hn
      rcases hn with h | ⟨w, hw, hr⟩
      · have : u = v := by simpa using h
        exact this ▸ Relation.ReflTransGen.refl
      · exact Relation.ReflTransGen.head (mem_succNodes.mp hw) (ih hr)

theorem getLastD_append_cons (A : List String) (x : String)
    (B : List String) (d : String) :
    (A ++ x :: B).getLastD d = B.getLastD x := by
  induction A generalizing d with
  | nil => rw [List.nil_append, List.getLastD_cons]
  | cons a A ih => rw [List.cons_append, List.getLastD_cons, ih]

theorem reachN_of_chain {u : String} {l : List String} {n : Nat}
    (hc : List.Chain (fun a b => (a, b) ∈ e) u l) (hlen : l.length ≤ n) :
    reachN e n u (l.getLastD u) = true := by
  induction l generalizing u n with
  | nil => exact reachN_refl n u
  | cons w l' ih =>
    cases hc with
    | cons hs hc' =>
      cases n with
      | zero => simp at hlen
      | succ n =>
        rw [List.getLastD_cons]
        exact reachN_step hs (ih hc' (by simpa using hlen))

theorem chain_of_reachN {n : Nat} {u v : String}
    (h : reachN e n u v = true) :
    ∃ l, List.Chain (fun a b => (a, b) ∈ e) u l ∧
      l.length ≤ n ∧ l.getLastD u = v := by
  induction n generalizing u with
  | zero =>
    have : u = v := by simpa [reachN] using h
    exact ⟨[], List.Chain.nil, Nat.le_refl 0, this⟩
  | succ n ih =>
    simp only [reachN, Bool.or_eq_true, List.any_eq_true] at h
    rcases h with h | ⟨w, hw, hr⟩
    · have : u = v := by simpa using h
      exact ⟨[], List.Chain.nil, Nat.zero_le _, this⟩
    · rcases ih hr with ⟨l', hc, hlen, hlast⟩
      exact ⟨w :: l', List.Chain.cons (mem_succNodes.mp hw) hc,
        by simpa using Nat.succ_le_succ hlen,
        by rw [List.getLastD_cons]; exact hlast⟩

theorem not_nodup_split {l : List String} (h : ¬ l.Nodup) :
    ∃ (x : String) (l₁ l₂ l₃ : List String),
      l = l₁ ++ x :: l₂ ++ x :: l₃ := by
  induction l with
  | nil => exact absurd List.nodup_nil h
  | cons a t ih =>
    by_cases hat : a ∈ t
    · rcases List.append_of_mem hat with ⟨s, t', ht⟩
      exact ⟨a, [], s, t', by rw [ht]; rfl⟩
    · have hnt : ¬ t.Nodup := by
        intro hnd
        exact h (List.nodup_cons.mpr ⟨hat, hnd⟩)
      rcases ih hnt with ⟨x, l₁, l₂, l₃, hl⟩
      exact ⟨x, a :: l₁, l₂, l₃, by rw [hl]; rfl⟩

theorem chain_dedup {u : String} :
    ∀ (n : Nat) (l : List String), l.length ≤ n →
    List.Chain (fun a b => (a, b) ∈ e) u l →
    ∃ l', List.Chain (fun a b => (a, b) ∈ e) u l' ∧
      (u :: l').Nodup ∧ l'.getLastD u = l.getLastD u ∧
      l'.length ≤ l.length := by
  intro n
  induction n with
  | zero =>
    intro l hlen hc
    have : l = [] := List.length_eq_zero.mp (Nat.le_zero.mp hlen)
    subst this
    exact ⟨[], List.Chain.nil, List.nodup_singleton u, rfl, Nat.le_refl 0⟩
  | succ n ih =>
    intro l hlen hc
    by_cases hnd : (u :: l).Nodup
    · exact ⟨l, hc, hnd, rfl, Nat.le_refl _⟩
    · rcases not_nodup_split hnd with ⟨x, l₁, l₂, l₃, hl⟩
      cases l₁ with
      | nil =>
        -- the duplicated element is `u` itself: cut the initial loop
        simp only [List.nil_append] at hl
        have hux : u = x := (List.cons.injEq _ _ _ _).mp hl |>.1
        have hltail : l = l₂ ++ x :: l₃ := (List.cons.injEq _ _ _ _).mp hl |>.2
        subst hux
        rw [hltail] at hc
        have hc3 : List.Chain (fun a b => (a, b) ∈ e) u l₃ :=
          (List.chain_split.mp hc).2
        have hlen3 : l₃.length ≤ n := by
          rw [hltail] at hlen
          simp only [List.length_append, List.length_cons] at hlen
          omega
        rcases ih l₃ hlen3 hc3 with ⟨l', hc', hnd', hlast', hlen'⟩
        refine ⟨l', hc', hnd', ?_, ?_⟩
        · rw [hltail, getLastD_append_cons, hlast']
        · rw [hltail]
          simp only [List.length_append, List.length_cons]
          omega
      | cons h₁ l₁' =>
        have hu : u = h₁ := (List.cons.injEq _ _ _ _).mp hl |>.1
        have hltail : l = l₁' ++ x :: l₂ ++ x :: l₃ :=
          (List.cons.injEq _ _ _ _).mp hl |>.2
        rw [hltail] at hc
        have hsplit1 := List.chain_split.mp
          (show List.Chain (fun a b => (a, b) ∈ e) u
            (l₁' ++ x :: (l₂ ++ x :: l₃)) by simpa using hc)
        have hsplit2 := List.chain_split.mp hsplit1.2
        have hcnew : List.Chain (fun a b => (a, b) ∈ e) u (l₁' ++ x :: l₃) :=
          List.chain_split.mpr ⟨hsplit1.1, hsplit2.2⟩
        have hlennew : (l₁' ++ x :: l₃).length ≤ n := by
          rw [hltail] at hlen
          simp only [List.length_append, List.length_cons] at hlen ⊢
          omega
        rcases ih (l₁' ++ x :: l₃) hlennew hcnew with
          ⟨l', hc', hnd', hlast', hlen'⟩
        refine ⟨l', hc', hnd', ?_, ?_⟩
        · rw [hlast', hltail, getLastD_append_cons l₁' x l₃,
            show (l₁' ++ x :: l₂ ++ x :: l₃ : List String)
              = l₁' ++ x :: (l₂ ++ x :: l₃) from by simp,
            getLastD_append_cons l₁' x (l₂ ++ x :: l₃),
            getLastD_append_cons l₂ x l₃]
        · rw [hltail]
          simp only [List.length_append, List.length_cons] at hlen' ⊢
          omega

theorem chain_mem_target {u : String} {l : List String}
    (hc : List.Chain (fun a b => (a, b) ∈ e) u l) :
    ∀ x ∈ l, ∃ a, (a, x) ∈ e := by
  induction l generalizing u with
  | nil => intro x hx; cases hx
  | cons w l' ih =>
    cases hc with
    | cons hs hc' =>
      intro x hx
      rcases List.mem_cons.mp hx with h1 | h2
      · exact ⟨u, h1 ▸ hs⟩
      · exact ih hc' x h2

/-- With all edge targets among the nodes, bounded reachability at fuel
`nodes.length` coincides with true reachability: any walk can be cut to
a duplicate-free one, whose length the node count bounds. -/
theorem reachN_nodes_iff_reaches {nodes : List String} {u v : String}
    (hclosed : ∀ p ∈ e, (p : String × String).2 ∈ nodes) :
    reachN e nodes.length u v = true ↔ Reaches e u v := by
  constructor
  · intro h
    exact reaches_iff_exists_reachN.mpr ⟨nodes.length, h⟩
  · intro h
    rcases reaches_iff_exists_reachN.mp h with ⟨n, hn⟩
    rcases chain_of_reachN hn with ⟨l, hc, _, hlast⟩
    rcases chain_dedup l.length l (Nat.le_refl _) hc with
      ⟨l', hc', hnd', hlast', _⟩
    have hsub : l' ⊆ nodes := by
      intro x hx
      rcases chain_mem_target hc' x hx with ⟨a, ha⟩
      exact hclosed (a, x) ha
    have hnd'' : l'.Nodup := (List.nodup_cons.mp hnd').2
    have hlenle : l'.length ≤ nodes.length :=
      (hnd''.subperm hsub).length_le
    have := reachN_of_chain hc' hlenle
    rw [hlast', hlast] at this
    exact this

theorem mutualB_iff_mutualReach {nodes : List String} {u v : String}
    (hclosed : ∀ p ∈ e, (p : String × String).2 ∈ nodes) :
    mutualB e nodes.length u v = true ↔ MutualReach e u v := by
  unfold mutualB MutualReach
  rw [Bool.and_eq_true, reachN_nodes_iff_reaches hclosed,
    reachN_nodes_iff_reaches hclosed]

theorem MutualReach.refl (u : String) : MutualReach e u u :=
  ⟨Relation.ReflTransGen.refl, Relation.ReflTransGen.refl⟩

theorem MutualReach.symm {u v : String} (h : MutualReach e u v) :
    MutualReach e v u := ⟨h.2, h.1⟩

theorem MutualReach.trans {u v w : String} (h1 : MutualReach e u v)
    (h2 : MutualReach e v w) : MutualReach e u w :=
  ⟨Relation.ReflTransGen.trans h1.1 h2.1,
    Relation.ReflTransGen.trans h2.2 h1.2⟩

end ReachLemmas

section SCCLemmas

theorem two_le_length_of_mem_ne {c : List String} {v w : String}
    (hv : v ∈ c) (hw : w ∈ c) (hne : v ≠ w) : 2 ≤ c.length := by
  cases c with
  | nil => cases hv
  | cons a t =>
    cases t with
    | nil =>
      rcases List.mem_singleton.mp hv with rfl
      rcases List.mem_singleton.mp hw with rfl
      exact absurd rfl hne
    | cons b t' => simp [Nat.le_add_left]

/-- Soundness of the component partition: on a duplicate-free worklist
closed under mutual reachability, every emitted component is a strongly
connected component (pairwise mutually reachable and maximal), and every
worklist node lands in some component. -/
theorem sccAux_sound {e : List (String × String)} {fuel : Nat}
    {N : List String}
    (hIff : ∀ u v, mutualB e fuel u v = true ↔ MutualReach e u v) :
    ∀ (n : Nat) (L : List String), L.length ≤ n → L.Nodup →
    (∀ v ∈ L, v ∈ N) →
    (∀ v ∈ L, ∀ w ∈ N, MutualReach e v w → w ∈ L) →
    (∀ c ∈ sccComponentsAux e fuel L,
      c.Nodup ∧ c ≠ [] ∧ (∀ u ∈ c, u ∈ L) ∧
      (∀ u ∈ c, ∀ w ∈ c, MutualReach e u w) ∧
      (∀ u ∈ c, ∀ w ∈ N, MutualReach e u w → w ∈ c)) ∧
    (∀ v ∈ L, ∃ c ∈ sccComponentsAux e fuel L, v ∈ c) := by
  intro n
  induction n with
  | zero =>
    intro L hlen _ _ _
    have hL : L = [] := List.length_eq_zero.mp (Nat.le_zero.mp hlen)
    subst hL
    refine ⟨fun c hc => ?_, fun v hv => absurd hv (by simp)⟩
    rw [sccComponentsAux] at hc
    cases hc
  | succ n ih =>
    intro L hlen hnd hsub hclosed
    cases L with
    | nil =>
      refine ⟨fun c hc => ?_, fun v hv => absurd hv (by simp)⟩
      rw [sccComponentsAux] at hc
      cases hc
    | cons v rest =>
      rw [List.nodup_cons] at hnd
      have hvN : v ∈ N := hsub v (List.mem_cons_self v rest)
      -- properties of the head component
      have compMutual : ∀ u ∈ v :: rest.filter (fun u => mutualB e fuel v u),
          MutualReach e v u := by
        intro u hu
        rcases List.mem_cons.mp hu with rfl | hu'
        · exact MutualReach.refl _
        · exact (hIff v u).mp (List.of_mem_filter hu')
      have compNodup : (v :: rest.filter (fun u => mutualB e fuel v u)).Nodup :=
        List.nodup_cons.mpr
          ⟨fun h => hnd.1 (List.mem_of_mem_filter h), hnd.2.filter _⟩
      have compSub : ∀ u ∈ v :: rest.filter (fun u => mutualB e fuel v u),
          u ∈ v :: rest := by
        intro u hu
        rcases List.mem_cons.mp hu with rfl | hu'
        · exact List.mem_cons_self _ _
        · exact List.mem_cons_of_mem _ (List.mem_of_mem_filter hu')
      have compMax : ∀ u ∈ v :: rest.filter (fun u => mutualB e fuel v u),
          ∀ w ∈ N, MutualReach e u w →
          w ∈ v :: rest.filter (fun u => mutualB e fuel v u) := by
        intro u hu w hw hmw
        have hmvw : MutualReach e v w := (compMutual u hu).trans hmw
        have hwL : w ∈ v :: rest :=
          hclosed v (List.mem_cons_self v rest) w hw hmvw
        rcases List.mem_cons.mp hwL with rfl | hwrest
        · exact List.mem_cons_self _ _
        · exact List.mem_cons_of_mem _
            (List.mem_filter.mpr ⟨hwrest, (hIff v w).mpr hmvw⟩)
      -- the reduced worklist keeps the invariant
      have hndrest' : (rest.filter (fun u => !mutualB e fuel v u)).Nodup :=
        hnd.2.filter _
      have hsubrest' : ∀ u ∈ rest.filter (fun u => !mutualB e fuel v u),
          u ∈ N := fun u hu =>
        hsub u (List.mem_cons_of_mem _ (List.mem_of_mem_filter hu))
      have hclosedrest' :
          ∀ u ∈ rest.filter (fun u => !mutualB e fuel v u),
          ∀ w ∈ N, MutualReach e u w →
          w ∈ rest.filter (fun u => !mutualB e fuel v u) := by
        intro u hu w hw hmw
        have hurest : u ∈ rest := List.mem_of_mem_filter hu
        have hnotB : mutualB e fuel v u = false := by
          have := List.of_mem_filter hu
          rwa [Bool.not_eq_true'] at this
        have hwL : w ∈ v :: rest :=
          hclosed u (List.mem_cons_of_mem _ hurest) w hw hmw
        rcases List.mem_cons.mp hwL with rfl | hwrest
        · exfalso
          have : MutualReach e w u := hmw.symm
          rw [(hIff w u).mpr this] at hnotB
          cases hnotB
        · refine List.mem_filter.mpr ⟨hwrest, ?_⟩
          rw [Bool.not_eq_true']
          by_contra hb
          rw [Bool.not_eq_false] at hb
          have hmvw : MutualReach e v w := (hIff v w).mp hb
          have : MutualReach e v u := hmvw.trans hmw.symm
          rw [(hIff v u).mpr this] at hnotB
          cases hnotB
      have hlenrest' : (rest.filter (fun u => !mutualB e fuel v u)).length ≤ n := by
        have h1 := List.length_filter_le (fun u => !mutualB e fuel v u) rest
        simp only [List.length_cons] at hlen
        omega
      have ihres := ih (rest.filter (fun u => !mutualB e fuel v u))
        hlenrest' hndrest' hsubrest' hclosedrest'
      constructor
      · intro c hc
        rw [sccComponentsAux] at hc
        rcases List.mem_cons.mp hc with rfl | hc'
        · refine ⟨compNodup, by simp, compSub, ?_, compMax⟩
          intro u hu w hw
          exact (compMutual u hu).symm.trans (compMutual w hw)
        · have hp := ihres.1 c hc'
          refine ⟨hp.1, hp.2.1, ?_, hp.2.2.2.1, hp.2.2.2.2⟩
          intro u hu
          exact List.mem_cons_of_mem _
            (List.mem_of_mem_filter (hp.2.2.1 u hu))
      · intro v' hv'
        rw [sccComponentsAux]
        rcases List.mem_cons.mp hv' with rfl | hv'rest
        · exact ⟨_, List.mem_cons_self _ _, List.mem_cons_self _ _⟩
        · by_cases hb : mutualB e fuel v v' = true
          · exact ⟨_, List.mem_cons_self _ _,
              List.mem_cons_of_mem _ (List.mem_filter.mpr ⟨hv'rest, hb⟩)⟩
          · have hv'rest' : v' ∈ rest.filter (fun u => !mutualB e fuel v u) :=
              List.mem_filter.mpr ⟨hv'rest, by
                rw [Bool.not_eq_true']
                exact Bool.eq_false_iff.mpr hb⟩
            rcases ihres.2 v' hv'rest' with ⟨c, hcmem, hvc⟩
            exact ⟨c, List.mem_cons_of_mem _ hcmem, hvc⟩

/-- `detect_clusters` reports exactly the strongly connected components
of size at least two. -/
theorem detectClusters_spec (nodes : List String)
    (edges : List (String × String)) (hnd : nodes.Nodup)
    (hclosed : ∀ p ∈ edges, (p : String × String).2 ∈ nodes) :
    (∀ c ∈ detectClusters nodes edges, 2 ≤ c.length ∧ c.Nodup ∧
      (∀ u ∈ c, u ∈ nodes) ∧
      (∀ u ∈ c, ∀ w ∈ c, MutualReach edges u w) ∧
      (∀ u ∈ c, ∀ w ∈ nodes, MutualReach edges u w → w ∈ c)) ∧
    (∀ v ∈ nodes, ∀ w ∈ nodes, v ≠ w → MutualReach edges v w →
      ∃ c ∈ detectClusters nodes edges, v ∈ c ∧ w ∈ c) := by
  have hIff : ∀ u v, mutualB edges nodes.length u v = true ↔
      MutualReach edges u v := fun u v => mutualB_iff_mutualReach hclosed
  have hmain := sccAux_sound hIff nodes.length nodes (Nat.le_refl _) hnd
    (fun v hv => hv) (fun v _ w hw _ => hw)
  unfold detectClusters sccComponents
  constructor
  · intro c hc
    rw [List.mem_filter] at hc
    have hlen : 2 ≤ c.length := by
      have := hc.2
      simp only [decide_eq_true_eq] at this
      omega
    have hp := hmain.1 c hc.1
    exact ⟨hlen, hp.1, hp.2.2.1, hp.2.2.2.1, hp.2.2.2.2⟩
  · intro v hv w hw hne hmw
    rcases hmain.2 v hv with ⟨c, hcmem, hvc⟩
    have hp := hmain.1 c hcmem
    have hwc : w ∈ c := hp.2.2.2.2 v hvc w hw hmw
    refine ⟨c, List.mem_filter.mpr ⟨hcmem, ?_⟩, hvc, hwc⟩
    have := two_le_length_of_mem_ne hvc hwc hne
    simp only [decide_eq_true_eq]
    omega

/-- C9: the reported clusters of a built graph are exactly the strongly
connected components of size at least two — every reported cluster is a
duplicate-free set of nodes, pairwise mutually reachable and maximal
with that property, with at least two members (so never a singleton);
and conversely any two distinct mutually reachable nodes appear
together in some reported cluster. -/
theorem C9_clusters (m : CrossrefMap) :
    (∀ c ∈ (fromCrossrefs m).clusters,
      2 ≤ c.length ∧ c.Nodup ∧
      (∀ u ∈ c, u ∈ (fromCrossrefs m).nodes) ∧
      (∀ u ∈ c, ∀ w ∈ c, Reaches (fromCrossrefs m).edges u w ∧
        Reaches (fromCrossrefs m).edges w u) ∧
      (∀ u ∈ c, ∀ w ∈ (fromCrossrefs m).nodes,
        Reaches (fromCrossrefs m).edges u w →
        Reaches (fromCrossrefs m).edges w u → w ∈ c)) ∧
    (∀ v ∈ (fromCrossrefs m).nodes, ∀ w ∈ (fromCrossrefs m).nodes,
      v ≠ w → Reaches (fromCrossrefs m).edges v w →
      Reaches (fromCrossrefs m).edges w v →
      ∃ c ∈ (fromCrossrefs m).clusters, v ∈ c ∧ w ∈ c) := by
  have hspec := detectClusters_spec (graphNodes m)
    (graphEdges (graphNodes m) m) (graphNodes_nodup m)
    (fun p hp => graphEdges_target_mem hp)
  constructor
  · intro c hc
    have hp := hspec.1 c hc
    exact ⟨hp.1, hp.2.1, hp.2.2.1,
      fun u hu w hw => hp.2.2.2.1 u hu w hw,
      fun u hu w hw h1 h2 => hp.2.2.2.2 u hu w hw ⟨h1, h2⟩⟩
  · intro v hv w hw hne h1 h2
    exact hspec.2 v hv w hw hne ⟨h1, h2⟩

/-- A two-cycle crossref map for the C9 witness: `a → b` and `b → a`. -/
def mutualMap : CrossrefMap :=
  [("a", [{ target := "b", line := 1, method := .xmlCrossref }]),
   ("b", [{ target := "a", line := 1, method := .xmlCrossref }])]

/-- Witness for C9: in the two-cycle graph, the mutually reachable pair
`a`, `b` is reported together in a cluster. -/
theorem C9_clusters_witness :
    ∃ c ∈ (fromCrossrefs mutualMap).clusters, "a" ∈ c ∧ "b" ∈ c :=
  (C9_clusters mutualMap).2 "a" (by decide) "b" (by decide) (by decide)
    (Relation.ReflTransGen.single (by decide))
    (Relation.ReflTransGen.single (by decide))

end SCCLemmas

/-! ## Skill data model (`src/skill/frontmatter.rs`, `src/skill/mod.rs`) -/

/-- A pipeline stage declaration: `{stage, order, after?, before?}`.
The struct is used by `check_pipeline_integrity` and constructed
field-by-field in the tests of `src/commands/check.rs` (lines 737-743);
its own definition lives in the frontmatter module. -/
structure PipelineStage where
  stage : String
  order : Nat
  after : Option (List String)
  before : Option (List String)
  deriving DecidableEq, Repr

/-- SKILL.md frontmatter, `src/skill/frontmatter.rs` lines 47-90
restricted to the fields the diagnostic engine reads (`name`,
`description`, `tags`, `pipeline`); the remaining optional fields are
never consulted by the checks.  The per-skill pipeline `HashMap` is an
association list. -/
structure Frontmatter where
  name : String
  description : String
  tags : Option (List String)
  pipeline : Option (List (String × PipelineStage))
  deriving DecidableEq, Repr

/-- A discovered skill, `src/skill/mod.rs` lines 33-46.  Paths are
lists of components. -/
structure Skill where
  name : String
  path : List String
  skillFile : List String
  frontmatter : Frontmatter
  deriving DecidableEq, Repr

/-! ## Suppress-key algebra: the `kind:source:detail` strings -/

theorem string_ne_of_getElem {s t : String} {i : Nat} {c₁ c₂ : Char}
    (h₁ : s.data[i]? = some c₁) (h₂ : t.data[i]? = some c₂)
    (hne : c₁ ≠ c₂) : s ≠ t := by
  intro h
  subst h
  rw [h₁] at h₂
  exact hne (Option.some.inj h₂)

theorem string_append_left_inj {p a b : String}
    (h : p ++ a = p ++ b) : a = b := by
  have hd := congrArg String.data h
  rw [String.data_append, String.data_append] at hd
  exact String.ext (List.append_cancel_left hd)

theorem colon_append_inj : ∀ {u u' : List Char} {v v' : List Char},
    (':' : Char) ∉ u → (':' : Char) ∉ u' →
    u ++ ':' :: v = u' ++ ':' :: v' → u = u' ∧ v = v' := by
  intro u
  induction u with
  | nil =>
    intro u' v v' _ hu' h
    cases u' with
    | nil =>
      rw [List.nil_append, List.nil_append] at h
      exact ⟨rfl, (List.cons.injEq _ _ _ _).mp h |>.2⟩
    | cons c u'' =>
      rw [List.nil_append, List.cons_append] at h
      have hc := (List.cons.injEq _ _ _ _).mp h
      exact absurd (hc.1 ▸ List.mem_cons_self c u'') hu'
  | cons c u'' ih =>
    intro u' v v' hu hu' h
    cases u' with
    | nil =>
      rw [List.nil_append, List.cons_append] at h
      have hc := (List.cons.injEq _ _ _ _).mp h
      exact absurd (hc.1.symm ▸ List.mem_cons_self c u'') hu
    | cons c' u''' =>
      rw [List.cons_append, List.cons_append] at h
      have hc := (List.cons.injEq _ _ _ _).mp h
      have hmu : (':' : Char) ∉ u'' :=
        fun hm => hu (List.mem_cons_of_mem c hm)
      have hmu' : (':' : Char) ∉ u''' :=
        fun hm => hu' (List.mem_cons_of_mem c' hm)
      rcases ih hmu hmu' hc.2 with ⟨h1, h2⟩
      exact ⟨by rw [hc.1, h1], h2⟩

/-- Count of findings carrying a given suppress key. -/
def countKey (k : String) (fs : List Finding) : Nat :=
  (fs.filter (fun f => f.suppressKey == k)).length

theorem countKey_append (k : String) (l₁ l₂ : List Finding) :
    countKey k (l₁ ++ l₂) = countKey k l₁ + countKey k l₂ := by
  unfold countKey
  rw [List.filter_append, List.length_append]

theorem countKey_eq_zero {k : String} {l : List Finding}
    (h : ∀ f ∈ l, f.suppressKey ≠ k) : countKey k l = 0 := by
  unfold countKey
  rw [List.length_eq_zero, List.filter_eq_nil_iff]
  intro f hf
  simpa using h f hf

theorem countKey_flatMap {α : Type} (k : String) (xs : List α)
    (f : α → List Finding) :
    countKey k (xs.flatMap f) =
      (xs.map (fun x => countKey k (f x))).sum := by
  induction xs with
  | nil => rfl
  | cons x xs ih =>
    rw [List.flatMap_cons, countKey_append, List.map_cons, List.sum_cons, ih]

/-! ## Placeholder/short-description check (`src/commands/check.rs`
lines 371-410) -/

/-- `PLACEHOLDER_DESCRIPTIONS`, `src/commands/check.rs:12`. -/
def placeholderDescriptions : List String :=
  ["Description here", "TODO", "TBD", "FIXME"]

/-- Boolean list-prefix test (scratch primitive for substring search). -/
def listIsPre : List Char → List Char → Bool
  | [], _ => true
  | _ :: _, [] => false
  | a :: s, b :: t => a == b && listIsPre s t

/-- Substring occurrence on character lists. -/
def listContainsSub (needle : List Char) : List Char → Bool
  | [] => listIsPre needle []
  | c :: rest => listIsPre needle (c :: rest) || listContainsSub needle rest

/-- Rust `str::contains` with a literal pattern: substring containment
(byte containment and character containment agree on valid UTF-8). -/
def strContains (hay needle : String) : Bool :=
  listContainsSub needle.data hay.data

/-- `Path::display`, for the fix strings. -/
def pathDisplay (p : List String) : String := String.intercalate ("/") p

/-- `desc.chars().take(n).collect::<String>()`. -/
def takeChars (n : Nat) (s : String) : String := String.mk (s.data.take n)

/-- Canonical suppress key of the placeholder check. -/
def placKey (n : String) : String := "placeholder:" ++ n

/-- Canonical suppress key of the short-description check. -/
def shortKey (n : String) : String := "short-description:" ++ n

/-- Loop body of `check_placeholder_descriptions`: placeholder literals
are checked first; only otherwise is the byte length of the description
compared against 10 (`desc.len()` counts UTF-8 bytes). -/
def placeholderFindingsFor (s : Skill) : List Finding :=
  if placeholderDescriptions.any
      (fun p => strContains s.frontmatter.description p) then
    [{ severity := .warning
       message := "Skill \x27" ++ s.name
         ++ "\x27 has placeholder description: \x27"
         ++ takeChars 50 s.frontmatter.description ++ "\x27"
       fix := "Edit " ++ pathDisplay s.path
         ++ "/SKILL.md and write a real description"
       path := some s.path
       suppressKey := placKey s.name }]
  else if s.frontmatter.description.utf8ByteSize < 10 then
    [{ severity := .warning
       message := "Skill \x27" ++ s.name
         ++ "\x27 has very short description ("
         ++ toString s.frontmatter.description.utf8ByteSize
         ++ " chars): \x27" ++ s.frontmatter.description ++ "\x27"
       fix := "Edit " ++ pathDisplay s.path
         ++ "/SKILL.md and expand the description"
       path := some s.path
       suppressKey := shortKey s.name }]
  else []

/-- `check_placeholder_descriptions`, `src/commands/check.rs` 371-410. -/
def checkPlaceholderDescriptions (skills : List Skill) : List Finding :=
  skills.flatMap placeholderFindingsFor

theorem placKey_inj {a b : String} (h : placKey a = placKey b) : a = b :=
  string_append_left_inj h

theorem shortKey_inj {a b : String} (h : shortKey a = shortKey b) : a = b :=
  string_append_left_inj h

theorem placKey_ne_shortKey (a b : String) : placKey a ≠ shortKey b := by
  have h1 : ((placKey a).data)[0]? = some 'p' := by
    show (("placeholder:" ++ a).data)[0]? = some 'p'
    rw [String.data_append]
    rfl
  have h2 : ((shortKey b).data)[0]? = some 's' := by
    show (("short-description:" ++ b).data)[0]? = some 's'
    rw [String.data_append]
    rfl
  exact string_ne_of_getElem h1 h2 (by decide)

theorem placeholderFindingsFor_props (s : Skill) :
    ∀ f ∈ placeholderFindingsFor s, f.severity = .warning ∧
      (f.suppressKey = placKey s.name ∨ f.suppressKey = shortKey s.name) := by
  intro f hf
  unfold placeholderFindingsFor at hf
  split_ifs at hf with h1 h2
  · rcases List.mem_singleton.mp hf with rfl
    exact ⟨rfl, Or.inl rfl⟩
  · rcases List.mem_singleton.mp hf with rfl
    exact ⟨rfl, Or.inr rfl⟩
  · cases hf

theorem mem_checkPlaceholder_key {skills : List Skill} {f : Finding}
    (hf : f ∈ checkPlaceholderDescriptions skills) :
    f.severity = .warning ∧ ∃ s ∈ skills,
      f.suppressKey = placKey s.name ∨ f.suppressKey = shortKey s.name := by
  rcases List.mem_flatMap.mp hf with ⟨s, hs, hfs⟩
  have := placeholderFindingsFor_props s f hfs
  exact ⟨this.1, s, hs, this.2⟩

theorem countKey_checkPlaceholder_zero {skills : List Skill} {k : String}
    (h : ∀ s' ∈ skills, k ≠ placKey (Skill.name s') ∧
      k ≠ shortKey (Skill.name s')) :
    countKey k (checkPlaceholderDescriptions skills) = 0 := by
  apply countKey_eq_zero
  intro f hf hk
  rcases mem_checkPlaceholder_key hf with ⟨_, s', hs', hkey⟩
  rcases hkey with h1 | h1
  · exact (h s' hs').1 (hk ▸ h1)
  · exact (h s' hs').2 (hk ▸ h1)

theorem countKey_singleton_self {k : String} {f : Finding}
    (h : f.suppressKey = k) : countKey k [f] = 1 := by
  unfold countKey
  rw [List.filter_cons]
  simp [h]

theorem countKey_singleton_ne {k : String} {f : Finding}
    (h : f.suppressKey ≠ k) : countKey k [f] = 0 := by
  unfold countKey
  rw [List.filter_cons]
  simp [h]

theorem countKey_entry_zero {s' : Skill} {k : String}
    (h1 : k ≠ placKey s'.name) (h2 : k ≠ shortKey s'.name) :
    countKey k (placeholderFindingsFor s') = 0 := by
  apply countKey_eq_zero
  intro f hf hk
  rcases (placeholderFindingsFor_props s' f hf).2 with he | he
  · exact h1 (hk ▸ he)
  · exact h2 (hk ▸ he)

/-- C8 counterexample input: a five-character description made of
two-byte characters (10 UTF-8 bytes, 5 characters). -/
def accentSkill : Skill :=
  { name := "accent"
    path := ["skills", "accent"]
    skillFile := ["skills", "accent", "SKILL.md"]
    frontmatter :=
      { name := "accent"
        description := "ééééé"
        tags := none
        pipeline := none } }

/-- C8, counterexample: the description `"ééééé"` has 5 characters
(fewer than 10) and contains no placeholder literal, so the claim
demands a short-description Warning; the code compares the UTF-8 byte
length (10, not below 10) and emits nothing. -/
theorem C8_counterexample :
    accentSkill.frontmatter.description.data.length = 5 ∧
    (∀ p ∈ placeholderDescriptions,
      strContains accentSkill.frontmatter.description p = false) ∧
    accentSkill.frontmatter.description.utf8ByteSize = 10 ∧
    checkPlaceholderDescriptions [accentSkill] = [] := by
  refine ⟨by decide, by decide, by decide, by decide⟩

/-- C8 (amended): per skill, the placeholder check and the
short-description check are mutually exclusive with placeholder
winning, where "short" means fewer than 10 UTF-8 bytes (Rust
`str::len`), not characters: a placeholder description yields exactly
one `placeholder:<name>` Warning and no short-description finding;
otherwise a description under 10 bytes yields exactly one
`short-description:<name>` Warning and no placeholder finding;
otherwise neither; and every finding of this check is a Warning. -/
theorem C8_placeholder_amended (skills : List Skill) (s : Skill)
    (hmem : s ∈ skills) (hnd : (skills.map Skill.name).Nodup) :
    (placeholderDescriptions.any
        (fun p => strContains s.frontmatter.description p) = true →
      countKey (placKey s.name) (checkPlaceholderDescriptions skills) = 1 ∧
      countKey (shortKey s.name) (checkPlaceholderDescriptions skills) = 0) ∧
    (placeholderDescriptions.any
        (fun p => strContains s.frontmatter.description p) = false →
      s.frontmatter.description.utf8ByteSize < 10 →
      countKey (shortKey s.name) (checkPlaceholderDescriptions skills) = 1 ∧
      countKey (placKey s.name) (checkPlaceholderDescriptions skills) = 0) ∧
    (placeholderDescriptions.any
        (fun p => strContains s.frontmatter.description p) = false →
      ¬ s.frontmatter.description.utf8ByteSize < 10 →
      countKey (placKey s.name) (checkPlaceholderDescriptions skills) = 0 ∧
      countKey (shortKey s.name) (checkPlaceholderDescriptions skills) = 0) ∧
    (∀ f ∈ checkPlaceholderDescriptions skills, f.severity = .warning) := by
  induction skills with
  | nil => cases hmem
  | cons s' rest ih =>
    rw [List.map_cons, List.nodup_cons] at hnd
    have hsplit : checkPlaceholderDescriptions (s' :: rest) =
        placeholderFindingsFor s' ++ checkPlaceholderDescriptions rest := by
      unfold checkPlaceholderDescriptions
      rw [List.flatMap_cons]
    have hwarn : ∀ f ∈ checkPlaceholderDescriptions (s' :: rest),
        f.severity = .warning := fun f hf => (mem_checkPlaceholder_key hf).1
    rcases List.mem_cons.mp hmem with rfl | hmemrest
    · -- the skill under scrutiny is at the head; the tail names differ
      have hz : ∀ k, (k = placKey s.name ∨ k = shortKey s.name) →
          countKey k (checkPlaceholderDescriptions rest) = 0 := by
        intro k hk
        apply countKey_checkPlaceholder_zero
        intro s'' hs''
        have hne : s.name ≠ s''.name := by
          intro h
          exact hnd.1 (h ▸ List.mem_map.mpr ⟨s'', hs'', rfl⟩)
        rcases hk with rfl | rfl
        · exact ⟨fun h => hne (placKey_inj h), placKey_ne_shortKey _ _⟩
        · exact ⟨fun h => (placKey_ne_shortKey s''.name s.name) h.symm,
            fun h => hne (shortKey_inj h)⟩
      refine ⟨?_, ?_, ?_, hwarn⟩
      · intro h1
        rw [hsplit, countKey_append, countKey_append,
          hz _ (Or.inl rfl), hz _ (Or.inr rfl)]
        unfold placeholderFindingsFor
        rw [if_pos h1]
        constructor
        · rw [Nat.add_zero]
          unfold countKey
          rw [List.filter_cons]
          simp
        · rw [Nat.add_zero]
          apply countKey_eq_zero
          intro f hf
          rcases List.mem_singleton.mp hf with rfl
          exact placKey_ne_shortKey s.name s.name
      · intro h1 h2
        rw [hsplit, countKey_append, countKey_append,
          hz _ (Or.inr rfl), hz _ (Or.inl rfl)]
        unfold placeholderFindingsFor
        rw [if_neg (by simp [h1]), if_pos h2]
        constructor
        · rw [Nat.add_zero]
          unfold countKey
          rw [List.filter_cons]
          simp
        · rw [Nat.add_zero]
          apply countKey_eq_zero
          intro f hf
          rcases List.mem_singleton.mp hf with rfl
          exact fun h => placKey_ne_shortKey s.name s.name h.symm
      · intro h1 h2
        rw [hsplit, countKey_append, countKey_append,
          hz _ (Or.inl rfl), hz _ (Or.inr rfl)]
        unfold placeholderFindingsFor
        rw [if_neg (by simp [h1]), if_neg h2]
        simp [countKey]
    · -- the skill under scrutiny is in the tail; the head contributes
      -- nothing to its keys
      have hne : s'.name ≠ s.name := by
        intro h
        exact hnd.1 (h ▸ List.mem_map.mpr ⟨s, hmemrest, rfl⟩)
      have hE0p : countKey (placKey s.name) (placeholderFindingsFor s') = 0 :=
        countKey_entry_zero (fun h => hne (placKey_inj h).symm)
          (fun h => (placKey_ne_shortKey s.name s'.name) h)
      have hE0s : countKey (shortKey s.name) (placeholderFindingsFor s') = 0 :=
        countKey_entry_zero
          (fun h => (placKey_ne_shortKey s'.name s.name) h.symm)
          (fun h => hne (shortKey_inj h).symm)
      have ihres := ih hmemrest hnd.2
      refine ⟨?_, ?_, ?_, hwarn⟩
      · intro h1
        rw [hsplit, countKey_append, countKey_append, hE0p, hE0s]
        have := ihres.1 h1
        omega
      · intro h1 h2
        rw [hsplit, countKey_append, countKey_append, hE0p, hE0s]
        have := ihres.2.1 h1 h2
        omega
      · intro h1 h2
        rw [hsplit, countKey_append, countKey_append, hE0p, hE0s]
        have := ihres.2.2.1 h1 h2
        omega

/-- Scenario D input: a description that is exactly the placeholder
literal `TODO`. -/
def todoSkill : Skill :=
  { name := "todo-skill"
    path := ["skills", "todo-skill"]
    skillFile := ["skills", "todo-skill", "SKILL.md"]
    frontmatter :=
      { name := "todo-skill"
        description := "TODO"
        tags := none
        pipeline := none } }

/-- Witness for the amended C8 at scenario D: description `"TODO"`
yields exactly the placeholder Warning and no short-description
finding, although the description is also shorter than 10 bytes. -/
theorem C8_placeholder_amended_witness :
    countKey (placKey todoSkill.name)
      (checkPlaceholderDescriptions [todoSkill]) = 1 ∧
    countKey (shortKey todoSkill.name)
      (checkPlaceholderDescriptions [todoSkill]) = 0 :=
  (C8_placeholder_amended [todoSkill] todoSkill (by decide) (by decide)).1
    (by decide)

/-! ## Pipeline integrity check (`src/commands/check.rs` lines 412-499) -/

/-- Suppress key `pipeline-gap:<pipeline>:<skill>:<dep>`. -/
def gapKey (p sn dep : String) : String :=
  "pipeline-gap:" ++ p ++ ":" ++ sn ++ ":" ++ dep

/-- Suppress key `pipeline-missing:<pipeline>:<skill>:<dep>`. -/
def missingKey (p sn dep : String) : String :=
  "pipeline-missing:" ++ p ++ ":" ++ sn ++ ":" ++ dep

/-- The Error emitted when a declared dependency does not exist among
the known skills (`src/commands/check.rs` lines 435-445 and 454-464);
`listName` is "after" or "before". -/
def missingFinding (p sn dep listName : String) : Finding :=
  { severity := .error
    message := "Pipeline \x27" ++ p ++ "\x27: skill \x27" ++ sn
      ++ "\x27 declares " ++ listName ++ ": [\x27" ++ dep
      ++ "\x27] but skill doesn\x27t exist"
    fix := "Create the skill with `loadout new " ++ dep
      ++ "`, or remove it from the " ++ listName ++ " list"
    path := none
    suppressKey := missingKey p sn dep }

/-- The Warning emitted for an asymmetric after/before declaration
(`src/commands/check.rs` lines 480-490). -/
def gapFinding (p sn dep : String) : Finding :=
  { severity := .warning
    message := "Pipeline \x27" ++ p ++ "\x27: \x27" ++ sn
      ++ "\x27 declares after: [\x27" ++ dep ++ "\x27] but \x27" ++ dep
      ++ "\x27 doesn\x27t declare before: [\x27" ++ sn ++ "\x27]"
    fix := "Add before: [\x27" ++ sn ++ "\x27] to skill \x27" ++ dep
      ++ "\x27 in pipeline \x27" ++ p ++ "\x27"
    path := none
    suppressKey := gapKey p sn dep }

/-- The keys of `pipeline_map` (`src/commands/check.rs` lines 415-426):
every pipeline name declared by some skill, as a set. -/
def pipelineNames (skills : List Skill) : List String :=
  (skills.flatMap (fun s =>
    (s.frontmatter.pipeline.getD []).map Prod.fst)).dedup

/-- The inner skill-to-stage map of `pipeline_map` for one pipeline. -/
def stagesOf (skills : List Skill) (p : String) :
    List (String × PipelineStage) :=
  skills.filterMap (fun s =>
    ((s.frontmatter.pipeline.getD []).lookup p).map
      (fun st => (s.name, st)))

/-- The gap check for one `after` entry (`src/commands/check.rs` lines
470-494): only a dependency that itself declares a stage in the same
pipeline is examined for a reciprocal `before`. -/
def gapEmit (skills : List Skill) (p sn dep : String) : Option Finding :=
  match (stagesOf skills p).lookup dep with
  | none => none
  | some depStage =>
    if (depStage.before.getD []).contains sn then none
    else some (gapFinding p sn dep)

/-- Findings of one `(pipeline, skill, stage)` iteration of
`check_pipeline_integrity`: missing `after` dependencies, missing
`before` dependencies, then asymmetric `after` declarations. -/
def stageFindings (skills : List Skill) (known : List String)
    (p sn : String) (st : PipelineStage) : List Finding :=
  ((st.after.getD []).filterMap (fun dep =>
    if dep ∈ known then none
    else some (missingFinding p sn dep ("after"))))
  ++ ((st.before.getD []).filterMap (fun dep =>
    if dep ∈ known then none
    else some (missingFinding p sn dep ("before"))))
  ++ ((st.after.getD []).filterMap (fun dep => gapEmit skills p sn dep))

/-- `check_pipeline_integrity`, `src/commands/check.rs` lines 412-499. -/
def checkPipelineIntegrity (skills : List Skill) (known : List String) :
    List Finding :=
  (pipelineNames skills).flatMap (fun p =>
    (stagesOf skills p).flatMap (fun e =>
      stageFindings skills known p e.1 e.2))

section PipelineKeyLemmas

theorem gapKey_data (p sn dep : String) :
    (gapKey p sn dep).data = "pipeline-gap:".data
      ++ (p.data ++ ':' :: (sn.data ++ ':' :: dep.data)) := by
  have hcolon : (":" : String).data = [':'] := rfl
  simp [gapKey, String.data_append, hcolon, List.append_assoc]

theorem gapKey_inj {p sn dep p' sn' dep' : String}
    (hp : (':' : Char) ∉ p.data) (hp' : (':' : Char) ∉ p'.data)
    (hs : (':' : Char) ∉ sn.data) (hs' : (':' : Char) ∉ sn'.data)
    (h : gapKey p sn dep = gapKey p' sn' dep') :
    p = p' ∧ sn = sn' ∧ dep = dep' := by
  have hd := congrArg String.data h
  rw [gapKey_data, gapKey_data] at hd
  have h1 := List.append_cancel_left hd
  rcases colon_append_inj hp hp' h1 with ⟨h2, h3⟩
  rcases colon_append_inj hs hs' h3 with ⟨h4, h5⟩
  exact ⟨String.ext h2, String.ext h4, String.ext h5⟩

theorem gapKey_ne_missingKey (p sn dep p' sn' dep' : String) :
    gapKey p sn dep ≠ missingKey p' sn' dep' := by
  have h1 : ((gapKey p sn dep).data)[9]? = some 'g' := by
    show (("pipeline-gap:" ++ p ++ ":" ++ sn ++ ":" ++ dep :
      String)).data[9]? = some 'g'
    simp only [String.data_append]
    rfl
  have h2 : ((missingKey p' sn' dep').data)[9]? = some 'm' := by
    show (("pipeline-missing:" ++ p' ++ ":" ++ sn' ++ ":" ++ dep' :
      String)).data[9]? = some 'm'
    simp only [String.data_append]
    rfl
  exact string_ne_of_getElem h1 h2 (by decide)

end PipelineKeyLemmas

section PipelineShapeLemmas

theorem mem_stageFindings {skills : List Skill} {known : List String}
    {p sn : String} {st : PipelineStage} {f : Finding}
    (hf : f ∈ stageFindings skills known p sn st) :
    (∃ dep ln, f = missingFinding p sn dep ln) ∨
      ∃ dep, f = gapFinding p sn dep := by
  unfold stageFindings at hf
  rcases List.mem_append.mp hf with h12 | h3
  · rcases List.mem_append.mp h12 with h1 | h2
    · rcases List.mem_filterMap.mp h1 with ⟨dep, _, hdep⟩
      by_cases hk : dep ∈ known
      · rw [if_pos hk] at hdep
        cases hdep
      · rw [if_neg hk] at hdep
        exact Or.inl ⟨dep, _, (Option.some.inj hdep).symm⟩
    · rcases List.mem_filterMap.mp h2 with ⟨dep, _, hdep⟩
      by_cases hk : dep ∈ known
      · rw [if_pos hk] at hdep
        cases hdep
      · rw [if_neg hk] at hdep
        exact Or.inl ⟨dep, _, (Option.some.inj hdep).symm⟩
  · rcases List.mem_filterMap.mp h3 with ⟨dep, _, hdep⟩
    unfold gapEmit at hdep
    split at hdep
    · cases hdep
    · split at hdep
      · cases hdep
      · exact Or.inr ⟨dep, (Option.some.inj hdep).symm⟩

theorem mem_pipelineNames_colonFree {skills : List Skill} {q : String}
    (hcf : ∀ s ∈ skills, (':' : Char) ∉ (Skill.name s).data ∧
      ∀ pr ∈ ((Skill.frontmatter s).pipeline.getD []),
        (':' : Char) ∉ (pr : String × PipelineStage).1.data)
    (hq : q ∈ pipelineNames skills) : (':' : Char) ∉ q.data := by
  unfold pipelineNames at hq
  rw [List.mem_dedup] at hq
  rcases List.mem_flatMap.mp hq with ⟨s, hs, hmem⟩
  rcases List.mem_map.mp hmem with ⟨pr, hpr, hq'⟩
  exact hq' ▸ (hcf s hs).2 pr hpr

theorem mem_stagesOf {skills : List Skill} {q sn : String}
    {st : PipelineStage} (h : (sn, st) ∈ stagesOf skills q) :
    ∃ s ∈ skills, Skill.name s = sn ∧
      ((Skill.frontmatter s).pipeline.getD []).lookup q = some st := by
  unfold stagesOf at h
  rcases List.mem_filterMap.mp h with ⟨s, hs, hmap⟩
  rcases hlk : ((s.frontmatter.pipeline.getD []).lookup q) with _ | st'
  · rw [hlk] at hmap
    cases hmap
  · rw [hlk] at hmap
    have hbeta : (s.name, st') = (sn, st) := Option.some.inj hmap
    rw [Prod.mk.injEq] at hbeta
    exact ⟨s, hs, hbeta.1, by rw [hlk, hbeta.2]⟩

theorem stagesOf_names_sublist (skills : List Skill) (q : String) :
    ((stagesOf skills q).map Prod.fst).Sublist (skills.map Skill.name) := by
  induction skills with
  | nil => exact List.Sublist.refl _
  | cons s rest ih =>
    unfold stagesOf
    rw [List.filterMap_cons, List.map_cons]
    rcases hlk : ((s.frontmatter.pipeline.getD []).lookup q) with _ | st
    · exact List.Sublist.cons _ ih
    · exact List.Sublist.cons₂ _ ih

theorem mem_pipelineNames_of_lookup {skills : List Skill} {p sn : String}
    {st : PipelineStage} (h : (sn, st) ∈ stagesOf skills p) :
    p ∈ pipelineNames skills := by
  rcases mem_stagesOf h with ⟨s, hs, _, hlk⟩
  unfold pipelineNames
  rw [List.mem_dedup]
  refine List.mem_flatMap.mpr ⟨s, hs, ?_⟩
  rcases List.lookup_eq_some_iff.mp hlk with ⟨l₁, l₂, heq, _⟩
  rw [heq]
  simp

end PipelineShapeLemmas

section PipelineCountLemmas

theorem sum_map_eq_zero {α : Type} {xs : List α} {g : α → Nat}
    (h : ∀ x ∈ xs, g x = 0) : (xs.map g).sum = 0 := by
  induction xs with
  | nil => rfl
  | cons y ys ih =>
    rw [List.map_cons, List.sum_cons, h y (List.mem_cons_self y ys),
      ih (fun x hx => h x (List.mem_cons_of_mem y hx))]

theorem sum_map_single {α : Type} {xs : List α} (key : α → String)
    (hnd : (xs.map key).Nodup) {x₀ : α} (hx : x₀ ∈ xs) (g : α → Nat)
    (hz : ∀ x ∈ xs, key x ≠ key x₀ → g x = 0) :
    (xs.map g).sum = g x₀ := by
  induction xs with
  | nil => cases hx
  | cons y ys ih =>
    rw [List.map_cons, List.nodup_cons] at hnd
    rw [List.map_cons, List.sum_cons]
    rcases List.mem_cons.mp hx with rfl | hx'
    · have hzero : (ys.map g).sum = 0 := by
        apply sum_map_eq_zero
        intro x hxm
        refine hz x (List.mem_cons_of_mem _ hxm) ?_
        intro hkx
        exact hnd.1 (hkx ▸ List.mem_map.mpr ⟨x, hxm, rfl⟩)
      rw [hzero]
      omega
    · have hky : key y ≠ key x₀ := by
        intro hk
        exact hnd.1 (hk ▸ List.mem_map.mpr ⟨x₀, hx', rfl⟩)
      rw [hz y (List.mem_cons_self y ys) hky,
        ih hnd.2 hx' (fun x hxm => hz x (List.mem_cons_of_mem y hxm))]
      omega

theorem countKey_cons_key {K : String} {f : Finding} {l : List Finding}
    (h : f.suppressKey = K) : countKey K (f :: l) = countKey K l + 1 := by
  unfold countKey
  rw [List.filter_cons]
  simp [h]

theorem countKey_cons_noKey {K : String} {f : Finding} {l : List Finding}
    (h : f.suppressKey ≠ K) : countKey K (f :: l) = countKey K l := by
  unfold countKey
  rw [List.filter_cons]
  simp [h]

theorem gapEmit_eq_some {skills : List Skill} {p sn dep : String}
    {f : Finding} (h : gapEmit skills p sn dep = some f) :
    f = gapFinding p sn dep := by
  unfold gapEmit at h
  split at h
  · cases h
  · split at h
    · cases h
    · exact (Option.some.inj h).symm

theorem countKey_stageFindings_zero {skills : List Skill}
    {known : List String} {p a b p' sn : String} {st : PipelineStage}
    (hne : ∀ dep, gapKey p a b ≠ gapKey p' sn dep) :
    countKey (gapKey p a b) (stageFindings skills known p' sn st) = 0 := by
  apply countKey_eq_zero
  intro f hf hk
  rcases mem_stageFindings hf with ⟨dep, ln, rfl⟩ | ⟨dep, rfl⟩
  · exact gapKey_ne_missingKey p a b p' sn dep hk.symm
  · exact hne dep hk.symm

theorem countKey_missList_zero {known : List String}
    {p a b p' sn ln : String} (deps : List String) :
    countKey (gapKey p a b) (deps.filterMap (fun dep =>
      if dep ∈ known then none
      else some (missingFinding p' sn dep ln))) = 0 := by
  apply countKey_eq_zero
  intro f hf hk
  rcases List.mem_filterMap.mp hf with ⟨dep, _, hdep⟩
  by_cases hknown : dep ∈ known
  · rw [if_pos hknown] at hdep
    cases hdep
  · rw [if_neg hknown] at hdep
    rcases Option.some.inj hdep with rfl
    exact gapKey_ne_missingKey p a b p' sn dep hk.symm

theorem countKey_gapList {skills : List Skill} {p a b : String}
    (hp : (':' : Char) ∉ p.data) (ha : (':' : Char) ∉ a.data)
    (deps : List String) :
    countKey (gapKey p a b)
      (deps.filterMap (fun dep => gapEmit skills p a dep)) =
      match gapEmit skills p a b with
      | some _ => deps.count b
      | none => 0 := by
  induction deps with
  | nil =>
    rcases gapEmit skills p a b with _ | f <;> rfl
  | cons d ds ih =>
    rcases hgb : gapEmit skills p a b with _ | fb <;>
      rw [hgb] at ih <;> dsimp only at ih ⊢
    · rcases hgd : gapEmit skills p a d with _ | f
      · simp only [List.filterMap_cons, hgd]
        exact ih
      · have hf : f = gapFinding p a d := gapEmit_eq_some hgd
        subst hf
        simp only [List.filterMap_cons, hgd]
        have hdb : d ≠ b := by
          intro h
          subst h
          rw [hgd] at hgb
          cases hgb
        have hkne : (gapFinding p a d).suppressKey ≠ gapKey p a b := by
          intro hk
          exact hdb ((gapKey_inj hp hp ha ha hk).2.2)
        rw [countKey_cons_noKey hkne]
        exact ih
    · by_cases hd : d = b
      · subst hd
        have hf : fb = gapFinding p a d := gapEmit_eq_some hgb
        subst hf
        simp only [List.filterMap_cons, hgb]
        have hkey : (gapFinding p a d).suppressKey = gapKey p a d := rfl
        rw [countKey_cons_key hkey, ih, List.count_cons]
        simp
      · rcases hgd : gapEmit skills p a d with _ | f
        · simp only [List.filterMap_cons, hgd]
          rw [ih, List.count_cons]
          simp [hd]
        · have hf : f = gapFinding p a d := gapEmit_eq_some hgd
          subst hf
          simp only [List.filterMap_cons, hgd]
          have hkne : (gapFinding p a d).suppressKey ≠ gapKey p a b := by
            intro hk
            exact hd ((gapKey_inj hp hp ha ha hk).2.2)
          rw [countKey_cons_noKey hkne, ih, List.count_cons]
          simp [hd]

end PipelineCountLemmas

/-- Stage of skill `a` in pipeline `p` for the C7 inputs:
`after: [b]`, no `before`. -/
def stageA : PipelineStage :=
  { stage := "second", order := 2, after := some ["b"], before := none }

/-- First C7 counterexample skill: declares `after: [b]` in `p`. -/
def gapSkillA : Skill :=
  { name := "a"
    path := ["skills", "a"]
    skillFile := ["skills", "a", "SKILL.md"]
    frontmatter :=
      { name := "a"
        description := "first in pipeline"
        tags := none
        pipeline := some [("p", stageA)] } }

/-- Second C7 counterexample skill: exists but declares no pipeline. -/
def gapSkillB : Skill :=
  { name := "b"
    path := ["skills", "b"]
    skillFile := ["skills", "b", "SKILL.md"]
    frontmatter :=
      { name := "b"
        description := "not in any pipeline"
        tags := none
        pipeline := none } }

/-- C7, counterexample: skill `a` declares `after:[b]` in pipeline `p`,
`b` exists among the known skills, and `b` declares no `before` list
containing `a` in `p` (it declares no stage in `p` at all) — yet the
pipeline-integrity check emits no finding whatsoever, in particular no
`pipeline-gap:p:a:b` Warning: the gap test only examines dependencies
that themselves declare a stage in the same pipeline. -/
theorem C7_counterexample :
    ("b" : String) ∈ (["a", "b"] : List String) ∧
    (stagesOf [gapSkillA, gapSkillB] ("p")).lookup ("a") = some stageA ∧
    ("b" : String) ∈ stageA.after.getD [] ∧
    (stagesOf [gapSkillA, gapSkillB] ("p")).lookup ("b") = none ∧
    checkPipelineIntegrity [gapSkillA, gapSkillB] ["a", "b"] = [] := by
  refine ⟨by decide, by decide, by decide, by decide, by decide⟩

/-- C7 (amended): for a skill `a` declaring `after:[b]` in pipeline `p`
(with colon-free, duplicate-free names), the `pipeline-gap:p:a:b`
Warning is controlled by whether `b` itself declares a stage in `p`:
if `b` has no stage in `p`, no such finding is emitted (even when `b`
is a known skill); if `b` has a stage whose `before` list omits `a`,
exactly one Warning per occurrence of `b` in the `after` list of `a` is
emitted; if the reciprocal `before` is declared, none; and every
finding with that key is a Warning. -/
theorem C7_pipeline_gap_amended (skills : List Skill)
    (known : List String) (p a b : String) (stA : PipelineStage)
    (hnd : (skills.map Skill.name).Nodup)
    (hcf : ∀ s ∈ skills, (':' : Char) ∉ (Skill.name s).data ∧
      ∀ pr ∈ ((Skill.frontmatter s).pipeline.getD []),
        (':' : Char) ∉ (pr : String × PipelineStage).1.data)
    (hp : (':' : Char) ∉ p.data) (ha : (':' : Char) ∉ a.data)
    (hA : (stagesOf skills p).lookup a = some stA) :
    ((stagesOf skills p).lookup b = none →
      countKey (gapKey p a b) (checkPipelineIntegrity skills known) = 0) ∧
    (∀ stB, (stagesOf skills p).lookup b = some stB →
      (stB.before.getD []).contains a = false →
      countKey (gapKey p a b) (checkPipelineIntegrity skills known) =
        (stA.after.getD []).count b) ∧
    (∀ stB, (stagesOf skills p).lookup b = some stB →
      (stB.before.getD []).contains a = true →
      countKey (gapKey p a b) (checkPipelineIntegrity skills known) = 0) ∧
    (∀ f ∈ checkPipelineIntegrity skills known,
      f.suppressKey = gapKey p a b → f.severity = .warning) := by
  have hmemA : (a, stA) ∈ stagesOf skills p := by
    rcases List.lookup_eq_some_iff.mp hA with ⟨l₁, l₂, heq, _⟩
    rw [heq]
    simp
  have hpmem : p ∈ pipelineNames skills := mem_pipelineNames_of_lookup hmemA
  have hsnfree : ∀ (q sn : String) (st : PipelineStage),
      (sn, st) ∈ stagesOf skills q → (':' : Char) ∉ sn.data := by
    intro q sn st h
    rcases mem_stagesOf h with ⟨s, hs, hname, _⟩
    exact hname ▸ (hcf s hs).1
  have hqfree : ∀ q ∈ pipelineNames skills, (':' : Char) ∉ q.data :=
    fun q hq => mem_pipelineNames_colonFree hcf hq
  have hpnnd : ((pipelineNames skills).map (fun q => q)).Nodup := by
    have := List.nodup_dedup (skills.flatMap (fun s =>
      (s.frontmatter.pipeline.getD []).map Prod.fst))
    simpa [pipelineNames] using this
  have hstnd : ((stagesOf skills p).map Prod.fst).Nodup :=
    List.Nodup.sublist (stagesOf_names_sublist skills p) hnd
  have hmain : countKey (gapKey p a b) (checkPipelineIntegrity skills known)
      = countKey (gapKey p a b)
          ((stA.after.getD []).filterMap
            (fun dep => gapEmit skills p a dep)) := by
    unfold checkPipelineIntegrity
    rw [countKey_flatMap]
    rw [sum_map_single (fun q => q) hpnnd hpmem _ (by
      intro q hq hne
      rw [countKey_flatMap]
      apply sum_map_eq_zero
      intro e he
      apply countKey_stageFindings_zero
      intro dep hk
      rcases gapKey_inj hp (hqfree q hq) ha (hsnfree q e.1 e.2 he) hk with
        ⟨hpq, _, _⟩
      exact hne hpq.symm)]
    rw [countKey_flatMap]
    rw [sum_map_single Prod.fst hstnd hmemA _ (by
      intro e he hne
      apply countKey_stageFindings_zero
      intro dep hk
      rcases gapKey_inj hp hp ha (hsnfree p e.1 e.2 he) hk with ⟨_, hsn, _⟩
      exact hne hsn.symm)]
    show countKey (gapKey p a b) (stageFindings skills known p a stA) = _
    unfold stageFindings
    rw [countKey_append, countKey_append, countKey_missList_zero,
      countKey_missList_zero]
    omega
  refine ⟨?_, ?_, ?_, ?_⟩
  · intro hb
    have hge : gapEmit skills p a b = none := by
      unfold gapEmit
      rw [hb]
    rw [hmain, countKey_gapList hp ha, hge]
  · intro stB hb hnc
    have hge : gapEmit skills p a b = some (gapFinding p a b) := by
      have hmem : a ∉ stB.before.getD [] := by simpa using hnc
      unfold gapEmit
      rw [hb]
      simp [hmem]
    rw [hmain, countKey_gapList hp ha, hge]
  · intro stB hb hc
    have hge : gapEmit skills p a b = none := by
      have hmem : a ∈ stB.before.getD [] := by simpa using hc
      unfold gapEmit
      rw [hb]
      simp [hmem]
    rw [hmain, countKey_gapList hp ha, hge]
  · intro f hf hk
    unfold checkPipelineIntegrity at hf
    rcases List.mem_flatMap.mp hf with ⟨q, _, hf2⟩
    rcases List.mem_flatMap.mp hf2 with ⟨e, _, hf3⟩
    rcases mem_stageFindings hf3 with ⟨dep, ln, rfl⟩ | ⟨dep, rfl⟩
    · exact absurd hk.symm (gapKey_ne_missingKey p a b q e.1 dep)
    · rfl

/-- Stage of skill `b` in pipeline `p` for the C7 witness: declares a
stage but no `before` list. -/
def stageB : PipelineStage :=
  { stage := "first", order := 1, after := none, before := none }

/-- Scenario-B witness skill `b`: in pipeline `p`, missing the
reciprocal `before: [a]`. -/
def gapSkillB2 : Skill :=
  { name := "b"
    path := ["skills", "b"]
    skillFile := ["skills", "b", "SKILL.md"]
    frontmatter :=
      { name := "b"
        description := "in pipeline, no before"
        tags := none
        pipeline := some [("p", stageB)] } }

/-- Witness for the amended C7: in the two-skill pipeline where `b`
declares a stage in `p` without `before: [a]`, exactly one Warning with
key `pipeline-gap:p:a:b` is emitted. -/
theorem C7_pipeline_gap_amended_witness :
    countKey (gapKey ("p") ("a") ("b"))
      (checkPipelineIntegrity [gapSkillA, gapSkillB2] ["a", "b"]) = 1 :=
  ((C7_pipeline_gap_amended [gapSkillA, gapSkillB2] ["a", "b"]
    ("p") ("a") ("b") stageA (by decide) (by decide) (by decide)
    (by decide) (by decide)).2.1 stageB (by decide) (by decide)).trans
    (by decide)

/-! ## Skill loading (`src/skill/mod.rs` lines 48-70) and the
name/directory check (`src/commands/check.rs` lines 248-272) -/

/-- Loading errors surfaced by `Skill::from_directory`. -/
inductive SkillLoadError
  | missingSkillFile (path : List String)
  | nameMismatch (expected found : String)
  deriving DecidableEq, Repr

/-- `Frontmatter::validate_directory_name`,
`src/skill/frontmatter.rs` lines 146-155. -/
def validateDirectoryName (fm : Frontmatter) (dirName : String) :
    Except SkillLoadError Unit :=
  if fm.name ≠ dirName then
    .error (.nameMismatch dirName fm.name)
  else .ok ()

/-- `Path::file_name` on a component path: the last component. -/
def pathFileName (p : List String) : Option String := p.getLast?

/-- `Skill::from_directory`, `src/skill/mod.rs` lines 50-70.  The two
effects are passed in: whether `SKILL.md` exists, and the result of
`Frontmatter::from_file`.  When the directory path has a final
component, the frontmatter name is validated against it before the
skill is built. -/
def fromDirectory (path : List String) (skillFileExists : Bool)
    (parsed : Except SkillLoadError Frontmatter) :
    Except SkillLoadError Skill :=
  if !skillFileExists then .error (.missingSkillFile path)
  else
    match parsed with
    | .error e => .error e
    | .ok fm =>
      match pathFileName path with
      | some dirName =>
        match validateDirectoryName fm dirName with
        | .error e => .error e
        | .ok _ =>
          .ok { name := fm.name, path := path,
                skillFile := path ++ ["SKILL.md"], frontmatter := fm }
      | none =>
        .ok { name := fm.name, path := path,
              skillFile := path ++ ["SKILL.md"], frontmatter := fm }

/-- Loop body of `check_name_directory_mismatch`
(`src/commands/check.rs` lines 248-272). -/
def nameMismatchFindingsFor (s : Skill) : List Finding :=
  match pathFileName s.path with
  | some dirName =>
    if dirName ≠ s.name then
      [{ severity := .error
         message := "Skill name \x27" ++ s.name
           ++ "\x27 does not match directory name \x27" ++ dirName ++ "\x27"
         fix := "Rename directory to \x27" ++ s.name
           ++ "\x27 or update frontmatter name field"
         path := some s.path
         suppressKey := "name-mismatch:" ++ s.name }]
    else []
  | none => []

/-- `check_name_directory_mismatch`, `src/commands/check.rs` 248-272. -/
def checkNameDirectoryMismatch (skills : List Skill) : List Finding :=
  skills.flatMap nameMismatchFindingsFor

/-- Any skill successfully loaded by `from_directory` triggers no
name/directory-mismatch finding: when the directory has a final
component, loading validated the name against it; when it has none,
the check skips the skill as well. -/
theorem fromDirectory_no_mismatch {path : List String} {ex : Bool}
    {parsed : Except SkillLoadError Frontmatter} {s : Skill}
    (h : fromDirectory path ex parsed = .ok s) :
    nameMismatchFindingsFor s = [] := by
  unfold fromDirectory at h
  cases ex with
  | false => simp at h
  | true =>
    simp only [Bool.not_true, Bool.false_eq_true, if_false] at h
    cases parsed with
    | error e => exact Except.noConfusion h
    | ok fm =>
      cases hpf : pathFileName path with
      | none =>
        rw [hpf] at h
        dsimp only at h
        injection h with h2
        subst h2
        unfold nameMismatchFindingsFor
        dsimp only
        rw [hpf]
      | some dirName =>
        rw [hpf] at h
        dsimp only at h
        unfold validateDirectoryName at h
        by_cases hname : fm.name ≠ dirName
        · rw [if_pos hname] at h
          exact Except.noConfusion h
        · rw [if_neg hname] at h
          dsimp only at h
          injection h with h2
          subst h2
          have heq : dirName = fm.name := (not_ne_iff.mp hname).symm
          unfold nameMismatchFindingsFor
          dsimp only
          rw [hpf]
          dsimp only
          rw [if_neg (by simp [heq])]

/-- C10: every skill list in which each skill was produced by
`Skill::from_directory` (as discovery produces them) passes
`check_name_directory_mismatch` with no findings, because loading
already failed on any frontmatter name differing from the directory
basename. -/
theorem C10_name_directory (skills : List Skill)
    (h : ∀ s ∈ skills, ∃ (path : List String) (ex : Bool)
      (parsed : Except SkillLoadError Frontmatter),
      fromDirectory path ex parsed = .ok s) :
    checkNameDirectoryMismatch skills = [] := by
  induction skills with
  | nil => rfl
  | cons s rest ih =>
    unfold checkNameDirectoryMismatch
    rw [List.flatMap_cons]
    rcases h s (List.mem_cons_self s rest) with ⟨path, ex, parsed, hok⟩
    rw [fromDirectory_no_mismatch hok, List.nil_append]
    have hres := ih (fun s' hs' => h s' (List.mem_cons_of_mem s hs'))
    unfold checkNameDirectoryMismatch at hres
    exact hres

/-- Frontmatter of the C10 witness skill. -/
def demoFm : Frontmatter :=
  { name := "demo"
    description := "a demo skill"
    tags := none
    pipeline := none }

/-- The skill produced by loading `skills/demo` with the demo
frontmatter. -/
def demoSkill : Skill :=
  { name := "demo"
    path := ["skills", "demo"]
    skillFile := ["skills", "demo", "SKILL.md"]
    frontmatter := demoFm }

/-- Witness for C10: a concretely loaded skill yields no
name/directory-mismatch finding. -/
theorem C10_name_directory_witness :
    checkNameDirectoryMismatch [demoSkill] = [] :=
  C10_name_directory [demoSkill] (by
    intro s hs
    rcases List.mem_singleton.mp hs with rfl
    exact ⟨["skills", "demo"], true, .ok demoFm, rfl⟩)

/-! ## Reference extractor (`src/skill/crossref.rs`)

The four detection heuristics are regex scans in the source; here each
regex is hand-compiled to a character-list scanner with the same
leftmost, non-overlapping match semantics (`captures_iter`).  Word
characters and case folding are modelled at ASCII precision. -/

/-- Split on newline characters; every `'\n'` ends a piece. -/
def splitNl : List Char → List (List Char)
  | [] => [[]]
  | '\n' :: rest => [] :: splitNl rest
  | c :: rest =>
    match splitNl rest with
    | [] => [[c]]
    | l :: ls => (c :: l) :: ls

/-- Strip one trailing carriage return (part of a `\r\n` ending). -/
def stripCr (l : List Char) : List Char :=
  match l.getLast? with
  | some '\r' => l.dropLast
  | _ => l

/-- Strip `'\r'` from every newline-terminated piece; the final piece
had no newline after it and keeps a stray `'\r'` (Rust `str::lines`). -/
def stripPieces : List (List Char) → List (List Char)
  | [] => []
  | [p] => [p]
  | p :: ps => stripCr p :: stripPieces ps

/-- Rust `str::lines`: pieces between newlines, `\r\n` treated as one
line ending, no trailing empty line for newline-terminated input. -/
def rustLines (s : String) : List (List Char) :=
  match s.data with
  | [] => []
  | cs =>
    let ps := splitNl cs
    if ps.getLast? = some [] then (ps.dropLast).map stripCr
    else stripPieces ps

/-- Character class `[a-z0-9]` of the slug pattern; under `(?i)` the
class also admits uppercase letters. -/
def isSlugChar (ci : Bool) (c : Char) : Bool :=
  ('a' ≤ c && c ≤ 'z') || ('0' ≤ c && c ≤ '9')
    || (ci && ('A' ≤ c && c ≤ 'Z'))

/-- Regex word character (`\w`, ASCII fragment), for `\b` boundaries. -/
def isWordChar (c : Char) : Bool :=
  ('a' ≤ c && c ≤ 'z') || ('A' ≤ c && c ≤ 'Z')
    || ('0' ≤ c && c ≤ '9') || c == '_'

/-- Continuation blocks `(-[a-z0-9]+)*` of a slug, maximal munch. -/
def slugTail (ci : Bool) : Nat → List Char → (List Char × List Char)
  | 0, cs => ([], cs)
  | fuel + 1, cs =>
    match cs with
    | '-' :: rest =>
      let blk := rest.takeWhile (isSlugChar ci)
      if blk.isEmpty then ([], cs)
      else
        let t := slugTail ci fuel (rest.dropWhile (isSlugChar ci))
        ('-' :: blk ++ t.1, t.2)
    | _ => ([], cs)

/-- Maximal match of the slug pattern `[a-z0-9]+(-[a-z0-9]+)*` at the
head of the input (greedy matching is exact here: no shorter match can
be followed by the delimiters the surrounding patterns require). -/
def munchSlug (ci : Bool) (cs : List Char) :
    Option (List Char × List Char) :=
  let blk := cs.takeWhile (isSlugChar ci)
  if blk.isEmpty then none
  else
    let t := slugTail ci cs.length (cs.dropWhile (isSlugChar ci))
    some (blk ++ t.1, t.2)

/-- Expect a literal character sequence. -/
def expectLit : List Char → List Char → Option (List Char)
  | [], rest => some rest
  | _ :: _, [] => none
  | l :: ls, c :: rest => if c == l then expectLit ls rest else none

/-- Expect a literal, ASCII case-insensitively (`(?i)`). -/
def expectLitCI : List Char → List Char → Option (List Char)
  | [], rest => some rest
  | _ :: _, [] => none
  | l :: ls, c :: rest =>
    if c.toLower == l.toLower then expectLitCI ls rest else none

/-- `\s+`: at least one whitespace character, maximal munch. -/
def ws1 (cs : List Char) : Option (List Char) :=
  match cs with
  | c :: rest => if c.isWhitespace then some (rest.dropWhile Char.isWhitespace) else none
  | [] => none

/-- One attempt of `<see\s+ref="SLUG">` at the current position. -/
def tryXmlAt (cs : List Char) : Option (List Char × List Char) := do
  let r1 ← expectLit ("<see").data cs
  let r2 ← ws1 r1
  let r3 ← expectLit ("ref=\"").data r2
  let (slug, r4) ← munchSlug false r3
  let r5 ← expectLit ("\">").data r4
  some (slug, r5)

/-- Leftmost non-overlapping scan of one line with a positional
matcher, as `captures_iter` does. -/
def scanLineF (tryAt : List Char → Option (List Char × List Char)) :
    Nat → List Char → List (List Char)
  | 0, _ => []
  | fuel + 1, cs =>
    match tryAt cs with
    | some (slug, rest) => slug :: scanLineF tryAt fuel rest
    | none =>
      match cs with
      | [] => []
      | _ :: rest => scanLineF tryAt fuel rest

/-- `extract_xml_crossrefs`, `src/skill/crossref.rs` lines 61-78. -/
def extract_xml_crossrefs (content : String) : List CrossRef :=
  (rustLines content).enum.flatMap (fun e =>
    (scanLineF tryXmlAt (e.2.length + 1) e.2).map (fun slug =>
      { target := String.mk slug, line := e.1 + 1,
        method := .xmlCrossref }))

/-- The context vocabulary of the backtick heuristic. -/
def contextWords : List (List Char) :=
  [("skill").data, ("invoke").data, ("load").data, ("use").data]

/-- Match one of the context words case-insensitively. -/
def matchContextWord (cs : List Char) : Option (List Char) :=
  contextWords.findSome? (fun w => expectLitCI w cs)

/-- Word boundary against the previously consumed character. -/
def boundaryBefore (prev : Option Char) : Bool :=
  match prev with
  | none => true
  | some c => !isWordChar c

/-- Branch 1 of the backtick regex:
`\b(skill|invoke|load|use)\b[^\n`]*` then a backtick-quoted slug.
Returns the captured slug, the last consumed character and the rest. -/
def tryBt1 (prev : Option Char) (cs : List Char) :
    Option (List Char × Char × List Char) := do
  if !boundaryBefore prev then none
  else
    let r1 ← matchContextWord cs
    -- boundary after the word
    match r1 with
    | c :: _ => if isWordChar c then none else tryBt1Tail r1
    | [] => tryBt1Tail r1
where
  tryBt1Tail (r1 : List Char) : Option (List Char × Char × List Char) := do
    let r2 := r1.dropWhile (fun c => c != '`')
    let r3 ← expectLit [('`')] r2
    let (slug, r4) ← munchSlug true r3
    let r5 ← expectLit [('`')] r4
    some (slug, '`', r5)

/-- End positions of `\b(word)\b` occurrences inside a backtick-free
span; the regex engine's greedy `[^\n`]*` selects the last one. -/
def wordEndsIn (span : List Char) : List Nat :=
  (List.range (span.length + 1)).filterMap (fun j =>
    let okBefore : Bool :=
      if _h : j = 0 then true
      else match (span.drop (j - 1)).head? with
        | some c => !isWordChar c
        | none => false
    if !okBefore then none
    else
      contextWords.findSome? (fun w =>
        match expectLitCI w (span.drop j) with
        | none => none
        | some rest =>
          match rest.head? with
          | some c => if isWordChar c then none else some (j + w.length)
          | none => some (j + w.length)))

/-- Branch 2 of the backtick regex: a backtick-quoted slug followed by
`[^\n`]*\b(skill|invoke|load|use)\b`. -/
def tryBt2 (cs : List Char) : Option (List Char × Char × List Char) := do
  let r1 ← expectLit [('`')] cs
  let (slug, r2) ← munchSlug true r1
  let r3 ← expectLit [('`')] r2
  let span := r3.takeWhile (fun c => c != '`')
  match (wordEndsIn span).getLast? with
  | none => none
  | some e =>
    match (r3.take e).getLast? with
    | some lastCh => some (slug, lastCh, r3.drop e)
    | none => none

/-- One attempt of the full backtick-context regex: the alternation
prefers branch 1, and both branches start at the current position. -/
def tryBtAt (prev : Option Char) (cs : List Char) :
    Option (List Char × Char × List Char) :=
  match tryBt1 prev cs with
  | some r => some r
  | none => tryBt2 cs

/-- Scan of one line for backtick-context references, tracking the
previously consumed character for `\b`. -/
def scanBtF : Nat → Option Char → List Char → List (List Char)
  | 0, _, _ => []
  | fuel + 1, prev, cs =>
    match tryBtAt prev cs with
    | some (slug, lastCh, rest) => slug :: scanBtF fuel (some lastCh) rest
    | none =>
      match cs with
      | [] => []
      | c :: rest => scanBtF fuel (some c) rest

/-- `extract_backtick_context`, `src/skill/crossref.rs` lines 80-104. -/
def extract_backtick_context (content : String) : List CrossRef :=
  (rustLines content).enum.flatMap (fun e =>
    (scanBtF (e.2.length + 1) none e.2).map (fun slug =>
      { target := String.mk slug, line := e.1 + 1,
        method := .backtickContext }))

/-- One attempt of the backtick-quoted-slug pattern of the table scan. -/
def tryTickSlug (cs : List Char) : Option (List Char × List Char) := do
  let r1 ← expectLit [('`')] cs
  let (slug, r2) ← munchSlug false r1
  let r3 ← expectLit [('`')] r2
  some (slug, r3)

/-- `extract_related_tables`, `src/skill/crossref.rs` lines 106-140:
a fold over the lines carrying the in-section flag. -/
def relatedTablesAux : Bool → List (Nat × List Char) → List CrossRef
  | _, [] => []
  | inSec, e :: rest =>
    let lower := e.2.map Char.toLower
    if listContainsSub ("related skill").data lower
        || listContainsSub ("integration").data lower then
      relatedTablesAux true rest
    else
      let inSec' := if e.2.head? = some '#' && inSec then false else inSec
      if inSec' && e.2.contains '|' then
        (scanLineF tryTickSlug (e.2.length + 1) e.2).map (fun slug =>
          { target := String.mk slug, line := e.1 + 1,
            method := .relatedTable }) ++ relatedTablesAux inSec' rest
      else relatedTablesAux inSec' rest

/-- `extract_related_tables` entry point. -/
def extract_related_tables (content : String) : List CrossRef :=
  relatedTablesAux false (rustLines content).enum

/-- Slug followed by `\s+` and a case-insensitive literal. -/
def slugThenLit (lit : List Char) (cs : List Char) :
    Option (List Char × List Char) := do
  let (slug, r1) ← munchSlug true cs
  let r2 ← ws1 r1
  let r3 ← expectLitCI lit r2
  some (slug, r3)

/-- Pattern `(?i)invoke\s+(?:the\s+)?SLUG\s+skill`: the optional
`the\s+` is preferred, with fallback when the remainder fails. -/
def tryInvokeSkill (cs : List Char) : Option (List Char × List Char) := do
  let r1 ← expectLitCI ("invoke").data cs
  let r2 ← ws1 r1
  let withThe := do
    let r3 ← expectLitCI ("the").data r2
    let r4 ← ws1 r3
    slugThenLit ("skill").data r4
  match withThe with
  | some res => some res
  | none => slugThenLit ("skill").data r2

/-- Pattern `(?i)load\s+SLUG\s+(?:first|skill)`. -/
def tryLoadFirst (cs : List Char) : Option (List Char × List Char) := do
  let r1 ← expectLitCI ("load").data cs
  let r2 ← ws1 r1
  let (slug, r3) ← munchSlug true r2
  let r4 ← ws1 r3
  match expectLitCI ("first").data r4 with
  | some r5 => some (slug, r5)
  | none =>
    match expectLitCI ("skill").data r4 with
    | some r5 => some (slug, r5)
    | none => none

/-- Pattern `(?i)use\s+(?:the\s+)?SLUG\s+skill`. -/
def tryUseSkill (cs : List Char) : Option (List Char × List Char) := do
  let r1 ← expectLitCI ("use").data cs
  let r2 ← ws1 r1
  let withThe := do
    let r3 ← expectLitCI ("the").data r2
    let r4 ← ws1 r3
    slugThenLit ("skill").data r4
  match withThe with
  | some res => some res
  | none => slugThenLit ("skill").data r2

/-- Pattern `(?i)invoke\s+SLUG\s+on`. -/
def tryInvokeOn (cs : List Char) : Option (List Char × List Char) := do
  let r1 ← expectLitCI ("invoke").data cs
  let r2 ← ws1 r1
  slugThenLit ("on").data r2

/-- `extract_natural_language`, `src/skill/crossref.rs` lines 142-170:
the four patterns are scanned pattern-major over all lines. -/
def extract_natural_language (content : String) : List CrossRef :=
  [tryInvokeSkill, tryLoadFirst, tryUseSkill, tryInvokeOn].flatMap
    (fun tryAt =>
      (rustLines content).enum.flatMap (fun e =>
        (scanLineF tryAt (e.2.length + 1) e.2).map (fun slug =>
          { target := String.mk slug, line := e.1 + 1,
            method := .naturalLanguage })))

/-- `extract_references`, `src/skill/crossref.rs` lines 32-44: the four
heuristics are concatenated and the self-references dropped. -/
def extract_references (content : String) (skill_name : String) :
    List CrossRef :=
  (extract_xml_crossrefs content ++ extract_backtick_context content
    ++ extract_related_tables content
    ++ extract_natural_language content).filter
    (fun r => r.target != skill_name)

/-- C3: the extractor never returns a cross-reference whose target is
the owning skill itself — whatever the four heuristics produced, the
final filter drops every self-reference. -/
theorem C3_no_self_reference (content skill_name : String) :
    ∀ r ∈ extract_references content skill_name,
      r.target ≠ skill_name := by
  intro r hr
  have := List.of_mem_filter hr
  simpa using this

/-- Content of the C3 witness: one self-reference and one genuine
cross-reference. -/
def selfFilterContent : String :=
  "\n  <crossrefs>\n    <see ref=\"skill-craft\">This skill</see>\n    <see ref=\"other-skill\">Another skill</see>\n  </crossrefs>\n"

/-- Witness for C3: the surviving extracted reference of the witness
content indeed has a target different from the owner. -/
theorem C3_no_self_reference_witness :
    ({ target := "other-skill", line := 4,
       method := DetectionMethod.xmlCrossref } : CrossRef).target
      ≠ "skill-craft" :=
  C3_no_self_reference selfFilterContent ("skill-craft") _ (by decide)

/-! Fidelity checks for the extractor, mirroring the unit tests of
`src/skill/crossref.rs` (`should_extract_xml_crossrefs`,
`should_extract_backtick_context_before/after`,
`should_extract_from_related_table`,
`should_extract_natural_language_invoke_the/load_first`,
`should_filter_self_references`, `should_record_line_numbers`). -/

example : (extract_xml_crossrefs
    ("\n  <crossrefs>\n    <see ref=\"dev-workflow\">Commit format</see>\n    <see ref=\"bdd\">Acceptance criteria</see>\n  </crossrefs>\n")).map
      (fun r => (r.target, r.line)) = [("dev-workflow", 3), ("bdd", 4)] := by
  decide

example : (extract_backtick_context
    ("invoke `skill-review` on the result")).map (fun r => r.target)
      = ["skill-review"] := by
  decide

example : (extract_backtick_context
    ("Use the `voice` skill for tone calibration")).map (fun r => r.target)
      = ["voice"] := by
  decide

example : (extract_backtick_context
    ("Line 1\nLine 2 with invoke `my-skill` here\nLine 3")).map
      (fun r => (r.target, r.line)) = [("my-skill", 2)] := by
  decide

example : (extract_related_tables
    ("\n## Related skills\n\n| Skill | Purpose |\n|-------|---------|\n| `skill-craft` | Creating skills |\n| `skill-review` | Reviewing quality |\n")).map
      (fun r => r.target) = ["skill-craft", "skill-review"] := by
  decide

example : (extract_natural_language
    ("You should invoke the skill-review skill to verify quality")).map
      (fun r => r.target) = ["skill-review"] := by
  decide

example : (extract_natural_language
    ("Load voice first before editing articles")).map (fun r => r.target)
      = ["voice"] := by
  decide

example : (extract_references
    ("\n  <crossrefs>\n    <see ref=\"skill-craft\">This skill</see>\n    <see ref=\"other-skill\">Another skill</see>\n  </crossrefs>\n")
    ("skill-craft")).map (fun r => r.target) = ["other-skill"] := by
  decide

end Loadout
